import Mathlib

/-!
Verification development for the collmbo Slack bot, conversation-assembly and
streaming-reply pipeline.  Python source functions are shallowly embedded as
Lean definitions: dict-shaped chat messages become the `Msg` structure,
in-place list mutation becomes explicit list passing, Python exceptions become
`Except` or `Option` results, and black-box collaborators (the litellm
`token_counter`, the model-info lookup, the Slack rendering pipeline) become
function parameters.  Machine integers are modelled as `Nat`; no overflow is
relevant to the embedded code paths.
-/

namespace Collmbo

/-- Content part of a user message: a typed item of the content list
(`type` is "text" or "image_url" in the source dicts; `url` is the
`image_url.url` field, `text` the `text` field, `cacheControl` the optional
`cache_control.type` value set by `maybe_set_cache_points`). -/
structure ContentPart where
  partType : String
  text : String := ""
  url : String := ""
  cacheControl : Option String := none
deriving DecidableEq, Repr

/-- Content of a chat message: either a plain string (system, assistant and
tool messages) or a list of typed content parts (user messages). -/
inductive MsgContent where
  | str (s : String)
  | parts (ps : List ContentPart)
deriving DecidableEq, Repr

/-- A role-tagged chat message, the unit exchanged with the completion
provider.  Mirrors the message dicts of the source (`role`, `content`,
optional `tool_call_id` and `name`). -/
structure Msg where
  role : String
  content : MsgContent
  toolCallId : Option String := none
  name : Option String := none
deriving DecidableEq, Repr

/-- Embeds `app.message_logic.build_tool_message`: builds the dict
appended for a completed tool call. -/
def build_tool_message (toolCallId : String) (name : String) (content : String) : Msg :=
  { role := "tool", content := .str content, toolCallId := some toolCallId, name := some name }

/- ### Context trimming (app/litellm_logic.py, app/litellm_ops.py, app/litellm_service.py) -/

/-- Embeds the inner `for`-loop of the trimming functions
(litellm_logic.py lines 67 to 70 and litellm_ops.py lines 129 to 134): delete
the first message whose role is in `("user", "assistant", "function")`;
`none` models the `for`-`else` path where no message was removed. -/
def removeFirstRemovable : List Msg → Option (List Msg)
  | [] => none
  | m :: ms =>
    if m.role = "user" ∨ m.role = "assistant" ∨ m.role = "function" then some ms
    else (removeFirstRemovable ms).map (fun r => m :: r)

/-- Removal shortens the list by exactly one element. -/
def removeFirstRemovableLength :
    ∀ (l r : List Msg), removeFirstRemovable l = some r → r.length + 1 = l.length := by
  intro l
  induction l with
  | nil => intro r h; simp [removeFirstRemovable] at h
  | cons m ms ih =>
    intro r h
    rw [removeFirstRemovable] at h
    by_cases hrole : m.role = "user" ∨ m.role = "assistant" ∨ m.role = "function"
    · rw [if_pos hrole] at h
      cases h
      rfl
    · rw [if_neg hrole] at h
      cases hms : removeFirstRemovable ms with
      | none => rw [hms] at h; simp at h
      | some r2 =>
        rw [hms] at h
        simp at h
        cases h
        have := ih r2 hms
        simp [List.length_cons]
        omega

/-- Embeds `app.litellm_logic.trim_messages_to_max_context_tokens`.  The
litellm `token_counter` is the black-box parameter `tc`.  The returned pair is
(the list as left mutated in place, the returned token count).  The `while`
loop is total: every iteration either exits or removes one message. -/
def trim_messages_to_max_context_tokens
    (tc : List Msg → Nat) (maxContextTokens : Nat) (messages : List Msg) :
    List Msg × Nat :=
  let messagesTokens := tc messages
  if messagesTokens ≤ maxContextTokens then (messages, messagesTokens)
  else if messages.length = 2 then (messages, messagesTokens)
  else
    match hrem : removeFirstRemovable messages with
    | some ms => trim_messages_to_max_context_tokens tc maxContextTokens ms
    | none => (messages, messagesTokens)
termination_by messages.length
decreasing_by
  have hlen := removeFirstRemovableLength messages ms hrem
  omega

/-- Embeds the eviction `while` loop of
`app.litellm_ops.messages_within_context_window` (lines 122 to 139),
including the `num_context_tokens` bookkeeping: on each removal it is set to
the pre-removal count, on the `while`-`else` exit it is set to the final
(within-budget) count, and on the `break` exit it keeps its previous value. -/
def evictionLoop (tc : List Msg → Nat) (maxContextTokens : Nat)
    (messages : List Msg) (numContextTokens : Nat) : List Msg × Nat :=
  let numTokens := tc messages
  if numTokens ≤ maxContextTokens then (messages, numTokens)
  else
    match hrem : removeFirstRemovable messages with
    | some ms => evictionLoop tc maxContextTokens ms numTokens
    | none => (messages, numContextTokens)
termination_by messages.length
decreasing_by
  have hlen := removeFirstRemovableLength messages ms hrem
  omega

/-- Embeds the trailing-assistant cleanup loop of
`app.litellm_ops.messages_within_context_window` (lines 141 to 147):
while the list is nonempty and ends in an assistant message, update the token
bookkeeping and drop the last message. -/
def stripTrailingAssistants (tc : List Msg → Nat)
    (messages : List Msg) (numContextTokens : Nat) : List Msg × Nat :=
  match hlast : messages.getLast? with
  | none => (messages, numContextTokens)
  | some m =>
    if m.role = "assistant" then
      stripTrailingAssistants tc messages.dropLast (tc messages)
    else (messages, numContextTokens)
termination_by messages.length
decreasing_by
  have hne : messages ≠ [] := by
    intro he
    rw [he] at hlast
    simp at hlast
  have : messages.length ≠ 0 := fun h0 => hne (List.length_eq_zero.mp h0)
  rw [List.length_dropLast]
  omega

/-- Embeds `app.litellm_ops.messages_within_context_window` with the
model-info lookup and tools-token estimate folded into the precomputed
`maxContextTokens` parameter: the eviction loop followed by the
trailing-assistant cleanup; returns (messages, num_context_tokens,
max_context_tokens). -/
def messages_within_context_window (tc : List Msg → Nat) (maxContextTokens : Nat)
    (messages : List Msg) : List Msg × Nat × Nat :=
  let r := evictionLoop tc maxContextTokens messages 0
  let r2 := stripTrailingAssistants tc r.1 r.2
  (r2.1, r2.2, maxContextTokens)

/-- Embeds lines 78 to 85 of `app.litellm_service.trim_messages_for_model_limit`
(the part downstream of the black-box budget computation): run the trimming
loop, then raise `ContextOverflowError(messages_tokens, max_context_tokens)`
if the count still exceeds the budget.  The error payload is the pair carried
by `ContextOverflowError`; the `ok` branch carries the trimmed list with the
returned token count. -/
def trim_messages_for_model_limit (tc : List Msg → Nat) (maxContextTokens : Nat)
    (messages : List Msg) : Except (Nat × Nat) (List Msg × Nat) :=
  let r := trim_messages_to_max_context_tokens tc maxContextTokens messages
  if maxContextTokens < r.2 then .error (r.2, maxContextTokens) else .ok (r.1, r.2)

/- ### PDF slot limit (app/litellm_pdf_ops.py) -/

/-- Embeds the PDF test of `app.litellm_pdf_ops.trim_pdf_content`: an item
counts as a PDF when its type is "image_url" and its url starts with the PDF
data-URI prefix. -/
def isPdfItem (item : ContentPart) : Bool :=
  item.partType = "image_url" && item.url.startsWith "data:application/pdf;"

/-- PDF items of one content value; string contents (the
`isinstance(message.get("content"), list)` guard) contribute none. -/
def contentPdfItems : MsgContent → List ContentPart
  | .str _ => []
  | .parts ps => ps.filter isPdfItem

/-- Embeds the inner `count_pdfs` helper of
`app.litellm_pdf_ops.trim_pdf_content`. -/
def countPdfs (messages : List Msg) : Nat :=
  (messages.map (fun m => (contentPdfItems m.content).length)).sum

/-- All PDF items of a message list, in message order (and file order inside
one message).  Used to state which PDFs survive trimming. -/
def pdfSeq (messages : List Msg) : List ContentPart :=
  (messages.map (fun m => contentPdfItems m.content)).flatten

/-- Embeds `message["content"].remove(item)` for the first PDF item of a
content list: `list.remove` deletes the first element equal to its argument,
and the argument is the first PDF item, so the first PDF item is deleted. -/
def eraseFirstPdfItem : List ContentPart → List ContentPart
  | [] => []
  | it :: its => if isPdfItem it then its else it :: eraseFirstPdfItem its

/-- Embeds one pass of the `for message in messages` body of
`app.litellm_pdf_ops.trim_pdf_content`: find the first message whose content
list holds a PDF item, remove that item, and stop. -/
def removeOldestPdf : List Msg → List Msg
  | [] => []
  | m :: ms =>
    match m.content with
    | .str _ => m :: removeOldestPdf ms
    | .parts ps =>
      if ps.any isPdfItem then { m with content := .parts (eraseFirstPdfItem ps) } :: ms
      else m :: removeOldestPdf ms

/-- When a PDF item is present, erasing the first one lowers the count by
exactly one. -/
def eraseFirstPdfItemLength :
    ∀ (ps : List ContentPart), ps.any isPdfItem = true →
      ((eraseFirstPdfItem ps).filter isPdfItem).length + 1 = (ps.filter isPdfItem).length := by
  intro ps
  induction ps with
  | nil => intro h; simp at h
  | cons it its ih =>
    intro h
    by_cases hp : isPdfItem it = true
    · simp [eraseFirstPdfItem, hp, List.filter_cons]
    · have hit : isPdfItem it = false := by
        cases hb : isPdfItem it
        · rfl
        · exact absurd hb hp
      have hany : its.any isPdfItem = true := by
        simp [List.any_cons, hit] at h
        simp [h]
      simp [eraseFirstPdfItem, hit, List.filter_cons, ih hany]

/-- A list with no PDF item filters to the empty list. -/
def pdfFilterNilOfAnyFalse :
    ∀ (ps : List ContentPart), ps.any isPdfItem = false → ps.filter isPdfItem = [] := by
  intro ps
  induction ps with
  | nil => intro _; rfl
  | cons a as ih =>
    intro h
    rw [List.any_cons] at h
    have ha : isPdfItem a = false := by
      cases hb : isPdfItem a
      · rfl
      · rw [hb] at h; simp at h
    have has : as.any isPdfItem = false := by
      cases hb : as.any isPdfItem
      · rfl
      · rw [hb] at h; simp at h
    simp [List.filter_cons, ha, ih has]

/-- Removing the oldest PDF lowers the global count by exactly one. -/
def removeOldestPdfCount :
    ∀ (messages : List Msg), 0 < countPdfs messages →
      countPdfs (removeOldestPdf messages) + 1 = countPdfs messages := by
  intro messages
  induction messages with
  | nil => intro h; simp [countPdfs] at h
  | cons m ms ih =>
    intro h
    match hc : m.content with
    | .str s =>
      have hms : 0 < countPdfs ms := by
        simpa [countPdfs, contentPdfItems, hc] using h
      have := ih hms
      simp [countPdfs, removeOldestPdf, hc, contentPdfItems] at this ⊢
      omega
    | .parts ps =>
      by_cases hany : ps.any isPdfItem = true
      · have := eraseFirstPdfItemLength ps hany
        simp [countPdfs, removeOldestPdf, hc, hany, contentPdfItems]
        omega
      · have hanyf : ps.any isPdfItem = false := by
          cases hb : ps.any isPdfItem
          · rfl
          · exact absurd hb hany
        have hzero : (ps.filter isPdfItem).length = 0 := by
          simp [pdfFilterNilOfAnyFalse ps hanyf]
        have hms : 0 < countPdfs ms := by
          simp [countPdfs, contentPdfItems, hc, hzero] at h
          simpa [countPdfs] using h
        have := ih hms
        simp [countPdfs, removeOldestPdf, hc, hanyf, contentPdfItems, hzero] at this ⊢
        omega

/-- Embeds `app.litellm_pdf_ops.trim_pdf_content`: while the list holds more
than five PDF items, remove the oldest one.  Bedrock Claude allows up to five
PDFs. -/
def trim_pdf_content (messages : List Msg) : List Msg :=
  if 5 < countPdfs messages then trim_pdf_content (removeOldestPdf messages)
  else messages
termination_by countPdfs messages
decreasing_by
  have := removeOldestPdfCount messages (by omega)
  omega

/- ### Tool dispatch (app/litellm_service.py process_tool_call / process_tool_calls) -/

/-- A tool call requested by the model: `tool_call.id`,
`tool_call.function.name` (optional in the litellm type) and the raw JSON
argument string `tool_call.function.arguments`. -/
structure ToolFunctionCall where
  id : String
  name : Option String
  arguments : String
deriving DecidableEq, Repr

/-- Embeds `app.litellm_service.process_tool_call` (lines 516 to 550).  The
pipeline `getattr(tools_module, name)`, `json.loads(arguments)` and the call
itself is the black-box parameter `invoke`; a raised Python exception is the
`Except.error` case.  The source has no `try`/`except` around the invocation,
so an error propagates and no tool message is appended; only a missing
function name is handled (the call is skipped with a warning). -/
def process_tool_call (invoke : String → String → Except String String)
    (toolCall : ToolFunctionCall) (messages : List Msg) : Except String (List Msg) :=
  match toolCall.name with
  | none => .ok messages
  | some functionName =>
    match invoke functionName toolCall.arguments with
    | .ok functionResponse =>
        .ok (messages ++ [build_tool_message toolCall.id functionName functionResponse])
    | .error e => .error e

/-- Embeds the `for tool_call in response_message.tool_calls` loop of
`app.litellm_service.process_tool_calls`: calls are processed in order and an
uncaught exception aborts the rest of the loop. -/
def process_tool_calls (invoke : String → String → Except String String)
    (toolCalls : List ToolFunctionCall) (messages : List Msg) : Except String (List Msg) :=
  match toolCalls with
  | [] => .ok messages
  | tc :: rest =>
    match process_tool_call invoke tc messages with
    | .ok ms => process_tool_calls invoke rest ms
    | .error e => .error e

/- ### Streaming loop (app/litellm_service.py handle_litellm_stream) -/

/-- A streamed completion chunk.  Modelled from the spec: each chunk exposes
an optional incremental text delta and an optional finish-reason (the
`extract_delta_content` and `is_final_chunk` helpers are imported from
`app.litellm_logic` and exercised by its tests, but their defining module
version is not present under src, so the accessors are modelled from the
spec and the tests). -/
structure Chunk where
  deltaContent : Option String
  finishReason : Option String
deriving DecidableEq, Repr

/-- Modelled from the spec: `extract_delta_content` returns the optional text
delta of a chunk (None for non-content chunks). -/
def extract_delta_content (c : Chunk) : Option String := c.deltaContent

/-- Modelled from the spec: `is_final_chunk` is true exactly when the chunk
carries a finish-reason. -/
def is_final_chunk (c : Chunk) : Bool := c.finishReason.isSome

/-- Result of consuming a stream: the list of flush operations issued against
the WIP Slack message, each a pair of the assistant content snapshot passed
to `update_reply_text` and the `with_loading_character` flag (true for the
spawned intermediate flushes, false for the final synchronous flush), plus
the accumulated assistant content and the too-long marker. -/
structure StreamResult where
  flushes : List (String × Bool)
  content : String
  isResponseTooLong : Bool
deriving DecidableEq, Repr

/-- Embeds the `for chunk in stream` loop of
`app.litellm_service.handle_litellm_stream` (lines 343 to 370).  `render` is
the display pipeline of `update_reply_text`
(`format_assistant_reply_for_slack` plus the optional mrkdwn conversion),
`bufSize` is `SLACK_UPDATE_TEXT_BUFFER_SIZE`, and `wipText` tracks
`wip_reply["message"]["text"]` as written by the spawned update threads
(which are all joined before the function returns; the embedding applies the
update at spawn time).  The wall-clock timeout check is outside the
embedding. -/
def handleStreamGo (render : String → String) (bufSize : Nat) (wipText : String)
    (buffered : String) (content : String) (flushes : List (String × Bool)) :
    List Chunk → StreamResult
  | [] => { flushes := flushes, content := content, isResponseTooLong := false }
  | ch :: rest =>
    match extract_delta_content ch with
    | none => handleStreamGo render bufSize wipText buffered content flushes rest
    | some delta =>
      let buffered2 := buffered ++ delta
      let content2 := content ++ delta
      let finalChunk := is_final_chunk ch
      if bufSize ≤ buffered2.length then
        let flushes2 := flushes ++ [(content2, true)]
        let wipText2 := render content2
        if finalChunk = false ∧ 3500 < wipText2.utf8ByteSize then
          { flushes := flushes2, content := content2, isResponseTooLong := true }
        else if finalChunk then
          { flushes := flushes2, content := content2, isResponseTooLong := false }
        else handleStreamGo render bufSize wipText2 "" content2 flushes2 rest
      else if finalChunk then
        { flushes := flushes, content := content2, isResponseTooLong := false }
      else handleStreamGo render bufSize wipText buffered2 content2 flushes rest

/-- Embeds `app.litellm_service.handle_litellm_stream` (lines 314 to 388):
consume the stream, then, when any content accumulated, issue the final
update with `with_loading_character=False` (lines 379 to 386). -/
def handle_litellm_stream (render : String → String) (bufSize : Nat)
    (wipText : String) (chunks : List Chunk) : StreamResult :=
  let r := handleStreamGo render bufSize wipText "" "" [] chunks
  if 0 < r.content.length then
    { r with flushes := r.flushes ++ [(r.content, false)] }
  else r

/- ### Mention stripping (app/message_logic.py remove_bot_mention) -/

/-- Python regex `\s` on the ASCII range: space, tab, newline, carriage
return, vertical tab and form feed. -/
def pyWs (c : Char) : Bool :=
  [' ', '\t', '\n', '\r', Char.ofNat 11, Char.ofNat 12].contains c

/-- Scanner for `re.sub(rf"<@{bot_user_id}>\s*", "", text)`: `re.sub`
replaces every non-overlapping occurrence, scanning left to right; at a match
the mention token and the following greedy whitespace run are dropped and
scanning resumes after them, otherwise one character is emitted.  Slack user
ids contain no regex metacharacters, so the pattern matches the literal
mention token. -/
def removeBotMentionGo (mention : List Char) (l : List Char) : List Char :=
  match l with
  | [] => []
  | c :: cs =>
    if mention ≠ [] ∧ mention.isPrefixOf (c :: cs) then
      removeBotMentionGo mention (((c :: cs).drop mention.length).dropWhile pyWs)
    else c :: removeBotMentionGo mention cs
termination_by l.length
decreasing_by
  · have h1 : (((c :: cs).drop mention.length).dropWhile pyWs).length ≤
        ((c :: cs).drop mention.length).length :=
      (List.dropWhile_sublist _).length_le
    have h2 : ((c :: cs).drop mention.length).length = (c :: cs).length - mention.length :=
      List.length_drop _ _
    have h3 : 1 ≤ mention.length := by
      rcases hm : mention with _ | ⟨a, ms⟩
      · exact absurd hm (by tauto)
      · simp
    simp only [List.length_cons] at h2 ⊢
    omega
  · simp

/-- Embeds `app.message_logic.remove_bot_mention`: the Python falsy test
`if bot_user_id` skips both `None` and the empty string. -/
def remove_bot_mention (text : String) (botUserId : Option String) : String :=
  match botUserId with
  | none => text
  | some b =>
    if b = "" then text
    else String.mk (removeBotMentionGo ("<@" ++ b ++ ">").data text.data)

/-- Whether the pattern occurs as a contiguous substring. -/
def hasOccurrence (pat : List Char) : List Char → Bool
  | [] => pat.isEmpty
  | c :: cs => pat.isPrefixOf (c :: cs) || hasOccurrence pat cs

/- ### Cache points (app/message_logic.py maybe_set_cache_points) -/

/-- Embeds `message["content"][-1]["cache_control"] = {"type": "ephemeral"}`:
set the marker on the last content part.  `none` models the Python error
raised when the content is not a list (`TypeError`) or is empty
(`IndexError`). -/
def setCacheControlOnLast (m : Msg) : Option Msg :=
  match m.content with
  | .str _ => none
  | .parts ps =>
    match ps.getLast? with
    | none => none
    | some p =>
      some { m with content :=
        MsgContent.parts (ps.dropLast ++ [{ p with cacheControl := some "ephemeral" }]) }

/-- Embeds the `for message in reversed(messages)` loop of
`app.message_logic.maybe_set_cache_points`, running over the reversed list:
skip non-user messages, mark the last content part of each user message, and
break once two have been marked. -/
def markLastTwoUsersGo (found : Nat) : List Msg → Option (List Msg)
  | [] => some []
  | m :: ms =>
    if m.role = "user" then
      match setCacheControlOnLast m with
      | none => none
      | some m2 =>
        if 2 ≤ found + 1 then some (m2 :: ms)
        else (markLastTwoUsersGo (found + 1) ms).map (fun r => m2 :: r)
    else (markLastTwoUsersGo found ms).map (fun r => m :: r)

/-- Embeds `app.message_logic.maybe_set_cache_points` (lines 178 to 207): a
no-op unless prompt caching is enabled, `total_tokens >= 1024` and at least
two user messages exist; otherwise mark the two most recent user messages.
The source mutates the list in place and returns `None`; the embedding
returns the resulting list, with `none` for a raised exception. -/
def maybe_set_cache_points (messages : List Msg) (totalTokens : Nat)
    (promptCacheEnabled : Bool) : Option (List Msg) :=
  if ¬ (promptCacheEnabled = true ∧ 1024 ≤ totalTokens ∧
      2 ≤ (messages.filter (fun m => m.role = "user")).length) then
    some messages
  else (markLastTwoUsersGo 0 messages.reverse).map List.reverse

/- ### Markup conversion (app/message_logic.py maybe_slack_to_markdown /
convert_markdown_to_mrkdwn)

The emphasis regexes share one shape: an opening marker, a lazy content of
at least one character that excludes the marker character and the newline,
lookarounds requiring non-whitespace at both content ends, and a closing
marker.  Because the content class excludes the marker character, the lazy
quantifier always stops at the next marker character, so each substitution is
computed by a left-to-right scanner that, at an opening marker, reads up to
the next marker character and checks the content conditions; on a failed
match `re.sub` advances one character, which the scanners mirror by emitting
one character and rescanning. -/

/-- The backtick character (written by code point to keep it out of the
source text outside string literals). -/
def btick : Char := Char.ofNat 96

/-- Splits a character list at the first occurrence of the marker `m`:
returns the characters before it and the characters after it. -/
def takeUntil (m : Char) : List Char → Option (List Char × List Char)
  | [] => none
  | c :: cs =>
    if c = m then some ([], cs)
    else (takeUntil m cs).map (fun p => (c :: p.1, p.2))

/-- The remainder returned by `takeUntil` is shorter than the input. -/
def takeUntilLength :
    ∀ (m : Char) (l : List Char) (a b : List Char),
      takeUntil m l = some (a, b) → b.length < l.length := by
  intro m l
  induction l with
  | nil => intro a b h; simp [takeUntil] at h
  | cons c cs ih =>
    intro a b h
    rw [takeUntil] at h
    by_cases hc : c = m
    · rw [if_pos hc] at h
      simp at h
      simp [h.2]
    · rw [if_neg hc] at h
      cases hcs : takeUntil m cs with
      | none => rw [hcs] at h; simp at h
      | some p =>
        rw [hcs] at h
        simp at h
        have := ih p.1 p.2 (by rw [hcs])
        simp [← h.2]
        omega

/-- Content test shared by every emphasis regex: at least one character
(`+`), no newline in the class, and the `(?!\s)` and `(?<!\s)` lookarounds
demanding non-whitespace immediately inside the marker pair. -/
def okContent : List Char → Bool
  | [] => false
  | c :: cs =>
    !pyWs c && !pyWs (cs.getLastD c) && !(c :: cs).contains '\n'

/-- Scanner for the single-marker emphasis substitutions of
`maybe_slack_to_markdown`, with marker `m` and replacement
`pre ++ content ++ post`: the patterns
`\*(?!\s)([^\*\n]+?)(?<!\s)\*` (to `**content**`),
`_(?!\s)([^_\n]+?)(?<!\s)_` (to `*content*`) and
`~(?!\s)([^~\n]+?)(?<!\s)~` (to `~~content~~`). -/
def subSingleGo (m : Char) (pre post : List Char) (l : List Char) : List Char :=
  match l with
  | [] => []
  | c :: cs =>
    if c = m then
      match hres : takeUntil m cs with
      | some (content, rest) =>
        if okContent content then
          pre ++ content ++ post ++ subSingleGo m pre post rest
        else c :: subSingleGo m pre post cs
      | none => c :: subSingleGo m pre post cs
    else c :: subSingleGo m pre post cs
termination_by l.length
decreasing_by
  · have := takeUntilLength m cs content rest hres
    simp only [List.length_cons]
    omega
  · simp
  · simp
  · simp

/-- Scanner for the double-marker substitutions of
`convert_markdown_to_mrkdwn`:
`\*\*(?!\s)([^\*\n]+?)(?<!\s)\*\*` (to `*content*`),
`__(?!\s)([^_\n]+?)(?<!\s)__` (to `*content*`) and
`~~(?!\s)([^~\n]+?)(?<!\s)~~` (to `~content~`).  The content class excludes
the single marker character, so the lazy content runs to the next marker,
which must be followed by a second one. -/
def subDoubleGo (m : Char) (pre post : List Char) (l : List Char) : List Char :=
  match l with
  | c1 :: c2 :: rest =>
    if c1 = m ∧ c2 = m then
      match hres : takeUntil m rest with
      | some (content, more) =>
        match more with
        | d1 :: rest2 =>
          if d1 = m ∧ okContent content then
            pre ++ content ++ post ++ subDoubleGo m pre post rest2
          else c1 :: subDoubleGo m pre post (c2 :: rest)
        | [] => c1 :: subDoubleGo m pre post (c2 :: rest)
      | none => c1 :: subDoubleGo m pre post (c2 :: rest)
    else c1 :: subDoubleGo m pre post (c2 :: rest)
  | l => l
termination_by l.length
decreasing_by
  · have := takeUntilLength m rest content (d1 :: rest2) hres
    simp only [List.length_cons] at this ⊢
    omega
  · simp
  · simp
  · simp
  · simp

/-- Scanner for the triple-star substitution of `convert_markdown_to_mrkdwn`:
`\*\*\*(?!\s)([^\*\n]+?)(?<!\s)\*\*\*` to `_*content*_`. -/
def subTripleGo (m : Char) (pre post : List Char) (l : List Char) : List Char :=
  match l with
  | c1 :: c2 :: c3 :: rest =>
    if c1 = m ∧ c2 = m ∧ c3 = m then
      match hres : takeUntil m rest with
      | some (content, more) =>
        match more with
        | d1 :: d2 :: rest2 =>
          if d1 = m ∧ d2 = m ∧ okContent content then
            pre ++ content ++ post ++ subTripleGo m pre post rest2
          else c1 :: subTripleGo m pre post (c2 :: c3 :: rest)
        | _ => c1 :: subTripleGo m pre post (c2 :: c3 :: rest)
      | none => c1 :: subTripleGo m pre post (c2 :: c3 :: rest)
    else c1 :: subTripleGo m pre post (c2 :: c3 :: rest)
  | l => l
termination_by l.length
decreasing_by
  · have := takeUntilLength m rest content (d1 :: d2 :: rest2) hres
    simp only [List.length_cons] at this ⊢
    omega
  · simp
  · simp
  · simp
  · simp

/-- Scanner for the guarded single-star substitution of
`convert_markdown_to_mrkdwn`:
`(?<![\*_])\*(?!\s)([^\*\n]+?)(?<!\s)\*(?![\*_])` to `_content_`.  The
parameter `prev` is the character of the original string before the current
position (the lookbehind window); after a replacement it is the closing star
of the match. -/
def subStarGuardGo (prev : Option Char) (l : List Char) : List Char :=
  match l with
  | [] => []
  | c :: cs =>
    if c = '*' ∧ prev ≠ some '*' ∧ prev ≠ some '_' then
      match hres : takeUntil '*' cs with
      | some (content, rest) =>
        if okContent content ∧ rest.head? ≠ some '*' ∧ rest.head? ≠ some '_' then
          '_' :: content ++ '_' :: subStarGuardGo (some '*') rest
        else c :: subStarGuardGo (some c) cs
      | none => c :: subStarGuardGo (some c) cs
    else c :: subStarGuardGo (some c) cs
termination_by l.length
decreasing_by
  · have := takeUntilLength '*' cs content rest hres
    simp only [List.length_cons]
    omega
  · simp
  · simp
  · simp

/-- The emphasis pipeline applied to a non-code part by
`maybe_slack_to_markdown` (lines 153 to 158): bold, then italic, then
strikethrough, each substitution running over the whole part. -/
def slackPartTransform (l : List Char) : List Char :=
  subSingleGo '~' "~~".data "~~".data
    (subSingleGo '_' "*".data "*".data
      (subSingleGo '*' "**".data "**".data l))

/-- The emphasis pipeline applied to a non-code part by
`convert_markdown_to_mrkdwn` (lines 276 to 289): bold italic, italic, bold,
double-underscore bold, strikethrough, in source order. -/
def markdownPartTransform (l : List Char) : List Char :=
  subDoubleGo '~' "~".data "~".data
    (subDoubleGo '_' "*".data "*".data
      (subDoubleGo '*' "*".data "*".data
        (subStarGuardGo none
          (subTripleGo '*' "_*".data "*_".data l))))

/-- Content test of the inline-code alternative: at least one character and
no newline (the character class already excludes the backtick, which
`takeUntil` enforces). -/
def okInline (content : List Char) : Bool :=
  !content.isEmpty && !content.contains '\n'

/-- Seeks the first triple-backtick occurrence, returning the characters
before it and the characters after it. -/
def findTripleCloseSeek : List Char → Option (List Char × List Char)
  | c1 :: c2 :: c3 :: rest =>
    if c1 = btick ∧ c2 = btick ∧ c3 = btick then some ([], rest)
    else (findTripleCloseSeek (c2 :: c3 :: rest)).map (fun p => (c1 :: p.1, p.2))
  | _ => none

/-- Finds the closing fence of the lazy fenced-code alternative: one content
character is forced, then the earliest later triple backtick closes the
block. -/
def findTripleClose (l : List Char) : Option (List Char × List Char) :=
  match l with
  | [] => none
  | a :: rest => (findTripleCloseSeek rest).map (fun p => (a :: p.1, p.2))

/-- The remainder returned by `findTripleCloseSeek` is at least three
characters shorter than the input. -/
def findTripleCloseSeekLength :
    ∀ (l : List Char) (a b : List Char),
      findTripleCloseSeek l = some (a, b) → b.length + 3 ≤ l.length := by
  intro l
  induction l with
  | nil => intro a b h; simp [findTripleCloseSeek] at h
  | cons c1 cs ih =>
    intro a b h
    match hcs : cs with
    | [] => simp [findTripleCloseSeek] at h
    | [c2] => simp [findTripleCloseSeek] at h
    | c2 :: c3 :: rest =>
      rw [findTripleCloseSeek] at h
      by_cases hb : c1 = btick ∧ c2 = btick ∧ c3 = btick
      · rw [if_pos hb] at h
        simp at h
        simp [← h.2]
      · rw [if_neg hb] at h
        cases hres : findTripleCloseSeek (c2 :: c3 :: rest) with
        | none => rw [hres] at h; simp at h
        | some p =>
          rw [hres] at h
          simp at h
          obtain ⟨h1, h2⟩ := h
          subst h2
          have := ih p.1 p.2 (by rw [hres])
          simp only [List.length_cons] at this ⊢
          omega

/-- The remainder returned by `findTripleClose` is shorter than the input. -/
def findTripleCloseLength :
    ∀ (l : List Char) (a b : List Char),
      findTripleClose l = some (a, b) → b.length < l.length := by
  intro l a b h
  match hl : l with
  | [] => simp [findTripleClose] at h
  | x :: rest =>
    rw [findTripleClose] at h
    cases hres : findTripleCloseSeek rest with
    | none => rw [hres] at h; simp at h
    | some p =>
      rw [hres] at h
      simp at h
      obtain ⟨h1, h2⟩ := h
      subst h2
      have := findTripleCloseSeekLength rest p.1 p.2 (by rw [hres])
      simp only [List.length_cons]
      omega

/-- Embeds the part split of both conversion functions (the
`re.split` call capturing fenced and inline code) as a scanner: at each
position the fenced alternative is tried first, then the inline-code
alternative; on failure the character joins the current non-code part
accumulator and scanning advances one character.  Returns the alternating
parts, code parts kept verbatim.  When the position starts with three
backticks but no closing fence exists, the inline alternative also fails
there (its content would have to start with a backtick), so the scanner
advances. -/
def codeSplitGo (acc : List Char) (l : List Char) : List (List Char) :=
  match l with
  | [] => [acc.reverse]
  | c1 :: cs =>
    if c1 = btick ∧ cs.head? = some btick ∧ (cs.drop 1).head? = some btick then
      match hres : findTripleClose (cs.drop 2) with
      | some (content, after) =>
          acc.reverse ::
            (btick :: btick :: btick :: content ++ [btick, btick, btick]) ::
              codeSplitGo [] after
      | none => codeSplitGo (c1 :: acc) cs
    else if c1 = btick then
      match hres2 : takeUntil btick cs with
      | some (content, after) =>
        if okInline content then
          acc.reverse :: (btick :: content ++ [btick]) :: codeSplitGo [] after
        else codeSplitGo (c1 :: acc) cs
      | none => codeSplitGo (c1 :: acc) cs
    else codeSplitGo (c1 :: acc) cs
termination_by l.length
decreasing_by
  · have h1 := findTripleCloseLength (cs.drop 2) content after hres
    have h2 : (cs.drop 2).length ≤ cs.length := by
      rw [List.length_drop]
      omega
    simp only [List.length_cons]
    omega
  · simp
  · have := takeUntilLength btick cs content after hres2
    simp only [List.length_cons]
    omega
  · simp
  · simp
  · simp


/-- Applies a part transformation to the non-code parts of a string, the way
both conversion functions do: a part is transformed only when it does not
start with a backtick (the source tests `part.startswith("```")` and
`part.startswith("`")`, together equivalent to a leading-backtick test), and
all parts are concatenated back. -/
def applyToNonCodeParts (f : List Char → List Char) (l : List Char) : List Char :=
  ((codeSplitGo [] l).map
    (fun part => if part.head? = some btick then part else f part)).flatten

/-- Embeds `app.message_logic.maybe_slack_to_markdown` (lines 130 to 160):
identity when markdown translation is disabled, otherwise the Slack-mrkdwn to
Markdown emphasis pipeline applied outside code spans. -/
def maybe_slack_to_markdown (content : String) (translateMarkdown : Bool) : String :=
  if translateMarkdown = false then content
  else String.mk (applyToNonCodeParts slackPartTransform content.data)

/-- Embeds `app.message_logic.convert_markdown_to_mrkdwn` (lines 257 to 291):
the Markdown to Slack-mrkdwn emphasis pipeline applied outside code spans. -/
def convert_markdown_to_mrkdwn (content : String) : String :=
  String.mk (applyToNonCodeParts markdownPartTransform content.data)

/- ### The paired-emphasis input class for the round-trip property -/

/-- One paired emphasis unit of the Slack dialect: bold, italic or
strikethrough around a content word. -/
inductive EmUnit where
  | bold (w : List Char)
  | ital (w : List Char)
  | strike (w : List Char)
deriving DecidableEq, Repr

/-- Content of a unit. -/
def EmUnit.content : EmUnit → List Char
  | .bold w => w
  | .ital w => w
  | .strike w => w

/-- A content word admissible inside a marker pair: nonempty, free of the
marker characters, the newline and the backtick, and with non-whitespace
first and last characters (the edge rule of the regexes). -/
def GoodW (w : List Char) : Prop :=
  w ≠ [] ∧ (∀ c ∈ w, c ≠ '*' ∧ c ≠ '_' ∧ c ≠ '~' ∧ c ≠ '\n' ∧ c ≠ btick) ∧
    (∀ c, w.head? = some c → pyWs c = false) ∧
    (∀ c, w.getLast? = some c → pyWs c = false)

instance : DecidablePred GoodW := fun w => by
  unfold GoodW
  infer_instance

/-- Renders one unit in the Slack dialect. -/
def renderUnit : EmUnit → List Char
  | .bold w => '*' :: w ++ ['*']
  | .ital w => '_' :: w ++ ['_']
  | .strike w => '~' :: w ++ ['~']

/-- Renders a list of units separated by single spaces, unit by unit with
the given per-unit rendering. -/
def renderWith (f : EmUnit → List Char) : List EmUnit → List Char
  | [] => []
  | [u] => f u
  | u :: us => f u ++ ' ' :: renderWith f us

/-- Renders a list of units separated by single spaces. -/
def renderUnits (us : List EmUnit) : List Char := renderWith renderUnit us

/-- Image of a unit after the bold substitution of the Slack-to-Markdown
pipeline. -/
def unitA : EmUnit → List Char
  | .bold w => '*' :: '*' :: (w ++ ['*', '*'])
  | .ital w => '_' :: (w ++ ['_'])
  | .strike w => '~' :: (w ++ ['~'])

/-- Image of a unit after the bold and italic substitutions of the
Slack-to-Markdown pipeline. -/
def unitB : EmUnit → List Char
  | .bold w => '*' :: '*' :: (w ++ ['*', '*'])
  | .ital w => '*' :: (w ++ ['*'])
  | .strike w => '~' :: (w ++ ['~'])

/-- Image of a unit in the neutral Markdown dialect (after the full
Slack-to-Markdown pipeline). -/
def unitC : EmUnit → List Char
  | .bold w => '*' :: '*' :: (w ++ ['*', '*'])
  | .ital w => '*' :: (w ++ ['*'])
  | .strike w => '~' :: '~' :: (w ++ ['~', '~'])

/-- Image of a unit after the guarded single-star substitution of the
Markdown-to-Slack pipeline. -/
def unitD : EmUnit → List Char
  | .bold w => '*' :: '*' :: (w ++ ['*', '*'])
  | .ital w => '_' :: (w ++ ['_'])
  | .strike w => '~' :: '~' :: (w ++ ['~', '~'])

/-- Image of a unit after the guarded single-star and double-star
substitutions of the Markdown-to-Slack pipeline. -/
def unitE : EmUnit → List Char
  | .bold w => '*' :: (w ++ ['*'])
  | .ital w => '_' :: (w ++ ['_'])
  | .strike w => '~' :: '~' :: (w ++ ['~', '~'])

/- ### Concrete instances used by the claim theorems -/

/-- Concrete system message. -/
def sysMsg : Msg := { role := "system", content := .str "sys" }

/-- Concrete user message. -/
def usrMsg : Msg := { role := "user", content := .str "hello" }

/-- Concrete assistant message. -/
def astMsg : Msg := { role := "assistant", content := .str "hi" }

/-- Concrete tool-result message, as appended by `process_tool_call`. -/
def toolMsgA : Msg := build_tool_message "id1" "echo" "hi"

/-- Second concrete tool-result message. -/
def toolMsgB : Msg := build_tool_message "id2" "echo" "ho"

/-- Concrete instance of the black-box litellm token counter: five tokens per
message. -/
def tc5 : List Msg → Nat := fun ms => 5 * ms.length

/-- Concrete instance of the tool-invocation pipeline: the tool named boom
raises, every other tool returns the string hi. -/
def invokeBoom : String → String → Except String String :=
  fun n _ => if n = "boom" then .error "division by zero" else .ok "hi"

/-- Concrete tool call whose invocation raises. -/
def boomCall : ToolFunctionCall := { id := "idB", name := some "boom", arguments := "[]" }

/-- Concrete tool call whose invocation succeeds. -/
def echoCall : ToolFunctionCall := { id := "idE", name := some "echo", arguments := "[]" }

/-- The simulated stream of end-to-end scenario 3: the content chunks Hello,
comma-space and world followed by a finish chunk. -/
def chunksScenario : List Chunk :=
  [{ deltaContent := some "Hello", finishReason := none },
   { deltaContent := some ", ", finishReason := none },
   { deltaContent := some "world", finishReason := none },
   { deltaContent := none, finishReason := some "stop" }]

/-- The returned list does not end in an assistant message. -/
def noTrailingAssistant (msgs : List Msg) : Prop :=
  ∀ m, msgs.getLast? = some m → m.role ≠ "assistant"

/- ### Lemmas about the trimming loops -/

/-- The trimming loop never lengthens the list. -/
theorem trim_length_le (tc : List Msg → Nat) (b : Nat) (msgs : List Msg) :
    (trim_messages_to_max_context_tokens tc b msgs).1.length ≤ msgs.length := by
  induction msgs using trim_messages_to_max_context_tokens.induct tc b with
  | case1 msgs tkn hle =>
    rw [trim_messages_to_max_context_tokens]
    simp only [if_pos hle]
    exact Nat.le_refl _
  | case2 msgs tkn hnle hlen =>
    rw [trim_messages_to_max_context_tokens]
    simp only [if_neg hnle, if_pos hlen]
    exact Nat.le_refl _
  | case3 msgs tkn hnle hlen ms hrem ih =>
    rw [trim_messages_to_max_context_tokens]
    simp only [if_neg hnle, if_neg hlen]
    split
    · rename_i ms2 hrem2
      rw [hrem] at hrem2
      cases hrem2
      have := removeFirstRemovableLength msgs ms hrem
      omega
    · rename_i hrem2
      rw [hrem] at hrem2
  | case4 msgs tkn hnle hlen hrem =>
    rw [trim_messages_to_max_context_tokens]
    simp only [if_neg hnle, if_neg hlen]
    split
    · rename_i ms2 hrem2
      rw [hrem] at hrem2
      cases hrem2
    · exact Nat.le_refl _

/-- The token count returned by the trimming loop is the token count of the
returned list. -/
theorem trim_tokens_eq (tc : List Msg → Nat) (b : Nat) (msgs : List Msg) :
    (trim_messages_to_max_context_tokens tc b msgs).2 =
      tc (trim_messages_to_max_context_tokens tc b msgs).1 := by
  induction msgs using trim_messages_to_max_context_tokens.induct tc b with
  | case1 msgs tkn hle =>
    rw [trim_messages_to_max_context_tokens]
    simp only [if_pos hle]
  | case2 msgs tkn hnle hlen =>
    rw [trim_messages_to_max_context_tokens]
    simp only [if_neg hnle, if_pos hlen]
  | case3 msgs tkn hnle hlen ms hrem ih =>
    rw [trim_messages_to_max_context_tokens]
    simp only [if_neg hnle, if_neg hlen]
    split
    · rename_i ms2 hrem2
      rw [hrem] at hrem2
      cases hrem2
      exact ih
    · rename_i hrem2
      rw [hrem] at hrem2
  | case4 msgs tkn hnle hlen hrem =>
    rw [trim_messages_to_max_context_tokens]
    simp only [if_neg hnle, if_neg hlen]
    split
    · rename_i ms2 hrem2
      rw [hrem] at hrem2
      cases hrem2
    · rfl

/-- The eviction loop never lengthens the list. -/
theorem evictionLoop_length_le (tc : List Msg → Nat) (b : Nat) (msgs : List Msg) (n : Nat) :
    (evictionLoop tc b msgs n).1.length ≤ msgs.length := by
  induction msgs, n using evictionLoop.induct tc b with
  | case1 msgs n tkn hle =>
    rw [evictionLoop]
    simp only [if_pos hle]
    exact Nat.le_refl _
  | case2 msgs n tkn hnle ms hrem ih =>
    rw [evictionLoop]
    simp only [if_neg hnle]
    split
    · rename_i ms2 hrem2
      rw [hrem] at hrem2
      cases hrem2
      have hlen := removeFirstRemovableLength msgs ms hrem
      have ih2 : (evictionLoop tc b ms (tc msgs)).1.length ≤ ms.length := ih
      omega
    · rename_i hrem2
      rw [hrem] at hrem2
  | case3 msgs n tkn hnle hrem =>
    rw [evictionLoop]
    simp only [if_neg hnle]
    split
    · rename_i ms2 hrem2
      rw [hrem] at hrem2
      cases hrem2
    · exact Nat.le_refl _

/-- The trailing-assistant cleanup never lengthens the list. -/
theorem stripTrailingAssistants_length_le (tc : List Msg → Nat) (msgs : List Msg) (n : Nat) :
    (stripTrailingAssistants tc msgs n).1.length ≤ msgs.length := by
  induction msgs, n using stripTrailingAssistants.induct tc with
  | case1 msgs n hlast =>
    rw [stripTrailingAssistants]
    split
    · exact Nat.le_refl _
    · rename_i m2 heq
      have heq2 : msgs.getLast? = some m2 := heq
      rw [hlast] at heq2
      cases heq2
  | case2 msgs n m hlast hrole ih =>
    rw [stripTrailingAssistants]
    split
    · rename_i heq
      exact absurd (hlast.symm.trans heq) (by simp)
    · rename_i m2 heq
      have heq2 : msgs.getLast? = some m2 := heq
      rw [hlast] at heq2
      cases heq2
      rw [if_pos hrole]
      have hd : msgs.dropLast.length ≤ msgs.length := by
        rw [List.length_dropLast]
        omega
      have ih2 : (stripTrailingAssistants tc msgs.dropLast (tc msgs)).1.length ≤
          msgs.dropLast.length := ih
      exact Nat.le_trans ih2 hd
  | case3 msgs n m hlast hrole =>
    rw [stripTrailingAssistants]
    split
    · rename_i heq
      exact absurd (hlast.symm.trans heq) (by simp)
    · rename_i m2 heq
      have heq2 : msgs.getLast? = some m2 := heq
      rw [hlast] at heq2
      cases heq2
      rw [if_neg hrole]

/-- The trailing-assistant cleanup leaves no assistant message at the end. -/
theorem stripTrailingAssistants_getLast (tc : List Msg → Nat) (msgs : List Msg) (n : Nat) :
    noTrailingAssistant (stripTrailingAssistants tc msgs n).1 := by
  induction msgs, n using stripTrailingAssistants.induct tc with
  | case1 msgs n hlast =>
    rw [stripTrailingAssistants]
    split
    · intro m hm
      rw [hlast] at hm
      cases hm
    · rename_i m2 heq
      have heq2 : msgs.getLast? = some m2 := heq
      rw [hlast] at heq2
      cases heq2
  | case2 msgs n m hlast hrole ih =>
    rw [stripTrailingAssistants]
    split
    · rename_i heq
      exact absurd (hlast.symm.trans heq) (by simp)
    · rename_i m2 heq
      have heq2 : msgs.getLast? = some m2 := heq
      rw [hlast] at heq2
      cases heq2
      rw [if_pos hrole]
      exact ih
  | case3 msgs n m hlast hrole =>
    rw [stripTrailingAssistants]
    split
    · rename_i heq
      exact absurd (hlast.symm.trans heq) (by simp)
    · rename_i m2 heq
      have heq2 : msgs.getLast? = some m2 := heq
      rw [hlast] at heq2
      cases heq2
      rw [if_neg hrole]
      intro m3 hm3
      rw [hlast] at hm3
      cases hm3
      exact hrole

/- ### Claim C1 -/

/-- Claim C1, evaluation at the failing input: with five tokens per message
and budget 12, the list system, tool, user is over budget and one eviction
step runs; the eviction removes the user message and keeps the tool message,
because the removable-role tuple of the source is
`("user", "assistant", "function")` and never matches role tool — the claim
says the earliest message with role in user, assistant, tool (here the tool
message) is removed.  With budget 5 a list of one system and two tool
messages is returned untrimmed and still over budget: tool messages are
never evictable. -/
theorem C1_trim_skips_tool_role :
    trim_messages_to_max_context_tokens tc5 12 [sysMsg, toolMsgA, usrMsg] =
      ([sysMsg, toolMsgA], 10) ∧
    removeFirstRemovable [sysMsg, toolMsgA, usrMsg] = some [sysMsg, toolMsgA] ∧
    trim_messages_to_max_context_tokens tc5 5 [sysMsg, toolMsgA, toolMsgB] =
      ([sysMsg, toolMsgA, toolMsgB], 15) := by
  refine ⟨?_, ?_, ?_⟩
  · simp [trim_messages_to_max_context_tokens, removeFirstRemovable, tc5, sysMsg, usrMsg,
      toolMsgA, build_tool_message]
  · simp [removeFirstRemovable, sysMsg, usrMsg, toolMsgA, build_tool_message]
  · simp [trim_messages_to_max_context_tokens, removeFirstRemovable, tc5, sysMsg,
      toolMsgA, toolMsgB, build_tool_message]

/- ### Claim C4 -/

/-- Claim C4: both trimming operations are total functions (their eviction
loops terminate by the length measure, proved in their definitions), and
neither ever returns a longer list than its input, for every message list
and every budget. -/
theorem C4_trim_never_grows (tc : List Msg → Nat) (b : Nat) (msgs : List Msg) :
    (trim_messages_to_max_context_tokens tc b msgs).1.length ≤ msgs.length ∧
    (messages_within_context_window tc b msgs).1.length ≤ msgs.length := by
  constructor
  · exact trim_length_le tc b msgs
  · have h1 := evictionLoop_length_le tc b msgs 0
    have h2 := stripTrailingAssistants_length_le tc
      (evictionLoop tc b msgs 0).1 (evictionLoop tc b msgs 0).2
    exact Nat.le_trans h2 h1

/- ### Claim C5 -/

/-- Claim C5, counterexample: with five tokens per message and budget 5, the
two-message list system, user measures 10 tokens and the code raises the
overflow error carrying (10, 5) without removing anything — yet the user
message is removable and removing it would bring the count to 5, within
budget.  The claim states the error is raised only when no removable
non-system message can bring the list under budget, which is false here: the
loop deliberately stops at two messages to keep one content message. -/
theorem C5_counterexample_overflow_despite_removable :
    trim_messages_for_model_limit tc5 5 [sysMsg, usrMsg] = .error (10, 5) ∧
    removeFirstRemovable [sysMsg, usrMsg] = some [sysMsg] ∧
    tc5 [sysMsg] ≤ 5 := by
  refine ⟨?_, ?_, ?_⟩
  · simp [trim_messages_for_model_limit, trim_messages_to_max_context_tokens, tc5,
      sysMsg, usrMsg]
  · simp [removeFirstRemovable, sysMsg, usrMsg]
  · simp [tc5]

/-- Claim C5, amended: the operation raises the overflow error, carrying the
measured token count and the budget, exactly when the trimmed list still
exceeds the budget — where trimming stops once the count fits, when only two
messages remain, or when no message with role user, assistant or function
remains; on normal return the reported token count is the trimmed list's
count and is at most the budget, so an over-budget list is never returned
silently. -/
theorem C5_overflow_iff_over_budget_after_trim (tc : List Msg → Nat) (b : Nat)
    (msgs : List Msg) :
    (∀ ms t, trim_messages_for_model_limit tc b msgs = .ok (ms, t) →
       t ≤ b ∧ ms = (trim_messages_to_max_context_tokens tc b msgs).1 ∧ t = tc ms) ∧
    (∀ t b2, trim_messages_for_model_limit tc b msgs = .error (t, b2) →
       b2 = b ∧ b < t ∧ t = tc (trim_messages_to_max_context_tokens tc b msgs).1) := by
  have htok := trim_tokens_eq tc b msgs
  constructor
  · intro ms t hok
    rw [trim_messages_for_model_limit] at hok
    split at hok
    · cases hok
    · rename_i hle
      cases hok
      exact ⟨Nat.not_lt.mp hle, rfl, htok⟩
  · intro t b2 herr
    rw [trim_messages_for_model_limit] at herr
    split at herr
    · rename_i hlt
      cases herr
      exact ⟨rfl, hlt, htok⟩
    · cases herr

/-- Witness for claim C5: at the concrete counterexample input the amended
theorem yields the error facts. -/
theorem C5_overflow_witness :
    (5 : Nat) = 5 ∧ 5 < 10 ∧
    10 = tc5 (trim_messages_to_max_context_tokens tc5 5 [sysMsg, usrMsg]).1 :=
  (C5_overflow_iff_over_budget_after_trim tc5 5 [sysMsg, usrMsg]).2 10 5 (by
    simp [trim_messages_for_model_limit, trim_messages_to_max_context_tokens, tc5,
      sysMsg, usrMsg])

/- ### Claim C6 -/

/-- Claim C6: for every message list ending in an assistant message, after
`messages_within_context_window` the returned list never ends in an
assistant message (the cleanup loop deletes trailing assistant messages). -/
theorem C6_no_trailing_assistant (tc : List Msg → Nat) (b : Nat) (msgs : List Msg)
    (m : Msg) (hlast : msgs.getLast? = some m) (hrole : m.role = "assistant") :
    noTrailingAssistant (messages_within_context_window tc b msgs).1 := by
  exact stripTrailingAssistants_getLast tc _ _

/-- Witness for claim C6: the concrete list system, user, assistant ends in
an assistant message, and the trimmed result never ends in one. -/
theorem C6_no_trailing_assistant_witness :
    [sysMsg, usrMsg, astMsg].getLast? = some astMsg ∧ astMsg.role = "assistant" ∧
    noTrailingAssistant (messages_within_context_window tc5 100 [sysMsg, usrMsg, astMsg]).1 :=
  ⟨by simp, rfl, C6_no_trailing_assistant tc5 100 [sysMsg, usrMsg, astMsg] astMsg (by simp) rfl⟩

/- ### Lemmas about the PDF slot limit -/

/-- The PDF count is the length of the PDF sequence. -/
theorem countPdfs_eq_len (msgs : List Msg) : countPdfs msgs = (pdfSeq msgs).length := by
  induction msgs with
  | nil => rfl
  | cons m ms ih =>
    simp [countPdfs, pdfSeq] at ih ⊢
    omega

/-- The PDF sequence of a cons. -/
theorem pdfSeq_cons (m : Msg) (ms : List Msg) :
    pdfSeq (m :: ms) = contentPdfItems m.content ++ pdfSeq ms := by
  simp [pdfSeq]

/-- Erasing the first PDF item takes the tail of the filtered item list. -/
theorem eraseFirstPdfItem_filter (ps : List ContentPart) (h : ps.any isPdfItem = true) :
    (eraseFirstPdfItem ps).filter isPdfItem = (ps.filter isPdfItem).tail := by
  induction ps with
  | nil => simp at h
  | cons it its ih =>
    by_cases hp : isPdfItem it = true
    · simp [eraseFirstPdfItem, hp, List.filter_cons]
    · have hit : isPdfItem it = false := by
        cases hb : isPdfItem it
        · rfl
        · exact absurd hb hp
      have hany : its.any isPdfItem = true := by
        simp [List.any_cons, hit] at h
        simp [h]
      simp [eraseFirstPdfItem, hit, List.filter_cons, ih hany]

/-- Removing the oldest PDF takes the tail of the global PDF sequence. -/
theorem pdfSeq_removeOldestPdf (msgs : List Msg) (h : 0 < countPdfs msgs) :
    pdfSeq (removeOldestPdf msgs) = (pdfSeq msgs).tail := by
  induction msgs with
  | nil => simp [countPdfs] at h
  | cons m ms ih =>
    match hc : m.content with
    | .str s =>
      have hx : contentPdfItems m.content = [] := by rw [hc]; rfl
      have hms : 0 < countPdfs ms := by
        simp [countPdfs, pdfSeq] at h ⊢
        simpa [countPdfs, hx] using h
      simp only [removeOldestPdf, hc]
      rw [pdfSeq_cons, pdfSeq_cons, hx, List.nil_append, List.nil_append]
      exact ih hms
    | .parts ps =>
      by_cases hany : ps.any isPdfItem = true
      · simp only [removeOldestPdf, hc, hany, if_pos]
        rw [pdfSeq_cons, pdfSeq_cons]
        have hx : contentPdfItems m.content = ps.filter isPdfItem := by rw [hc]; rfl
        have hx2 : contentPdfItems (MsgContent.parts (eraseFirstPdfItem ps)) =
            (eraseFirstPdfItem ps).filter isPdfItem := rfl
        rw [hx]
        have hne : ps.filter isPdfItem ≠ [] := by
          intro he
          have := eraseFirstPdfItemLength ps hany
          rw [he] at this
          simp at this
        match hfe : ps.filter isPdfItem with
        | [] => exact absurd hfe hne
        | p :: prest =>
          have := eraseFirstPdfItem_filter ps hany
          rw [hfe] at this
          simp only [List.cons_append, List.tail_cons]
          calc contentPdfItems (MsgContent.parts (eraseFirstPdfItem ps)) ++ pdfSeq ms
              = (eraseFirstPdfItem ps).filter isPdfItem ++ pdfSeq ms := by rw [hx2]
            _ = prest ++ pdfSeq ms := by rw [this]; rfl
      · have hanyf : ps.any isPdfItem = false := by
          cases hb : ps.any isPdfItem
          · rfl
          · exact absurd hb hany
        have hnil := pdfFilterNilOfAnyFalse ps hanyf
        have hx : contentPdfItems m.content = [] := by rw [hc]; simp [contentPdfItems, hnil]
        have hms : 0 < countPdfs ms := by
          simp [countPdfs] at h ⊢
          simpa [countPdfs, hx] using h
        simp only [removeOldestPdf, hc, hanyf]
        rw [if_neg (by simp [hanyf])]
        rw [pdfSeq_cons, pdfSeq_cons, hx, List.nil_append, List.nil_append]
        exact ih hms

/- ### Claim C2 -/

/-- Claim C2: for every message list, `trim_pdf_content` leaves at most five
PDF content items, and the surviving PDF items are exactly the final segment
of the original PDF sequence in message order — the oldest ones are evicted,
the most recent five are retained.  In particular, when the list holds more
than five PDFs, exactly the five most recent remain. -/
theorem C2_pdf_slot_budget (msgs : List Msg) :
    countPdfs (trim_pdf_content msgs) ≤ 5 ∧
    pdfSeq (trim_pdf_content msgs) = (pdfSeq msgs).drop (countPdfs msgs - 5) := by
  induction msgs using trim_pdf_content.induct with
  | case1 msgs hgt ih =>
    rw [trim_pdf_content, if_pos hgt]
    have hcnt := removeOldestPdfCount msgs (by omega)
    refine ⟨ih.1, ?_⟩
    rw [ih.2, pdfSeq_removeOldestPdf msgs (by omega)]
    rw [show ((pdfSeq msgs).tail : List ContentPart) = (pdfSeq msgs).drop 1 from
      (List.drop_one _).symm]
    rw [List.drop_drop]
    congr 1
    omega
  | case2 msgs hle =>
    rw [trim_pdf_content, if_neg hle]
    have h5 : countPdfs msgs ≤ 5 := by omega
    refine ⟨h5, ?_⟩
    rw [Nat.sub_eq_zero_of_le h5, List.drop_zero]

/- ### Claim C3 -/

/-- Claim C3, counterexample: a tool call whose invocation raises is not
caught per call — no role tool message with the error as content is
appended; instead the error propagates out of `process_tool_call`, and in a
round with a second (well-behaved) tool call the loop aborts before
processing it, so the exchange does not continue. -/
theorem C3_counterexample_tool_error_aborts :
    process_tool_call invokeBoom boomCall [] = .error "division by zero" ∧
    process_tool_calls invokeBoom [boomCall, echoCall] [] = .error "division by zero" := by
  constructor
  · rfl
  · rfl

/-- Claim C3, amended: an error raised by a tool invocation is not caught
inside the per-call handler: no role tool message is appended for the
failing call, the error propagates out of `process_tool_call`, and the
remaining tool calls of the round are not processed — the round is aborted
to the outer reply handler.  A successful call appends the role tool message
with the call id, name and result. -/
theorem C3_tool_errors_propagate (invoke : String → String → Except String String)
    (toolCall : ToolFunctionCall) (rest : List ToolFunctionCall) (messages : List Msg)
    (f e r : String) :
    (toolCall.name = some f → invoke f toolCall.arguments = .error e →
       process_tool_call invoke toolCall messages = .error e ∧
       process_tool_calls invoke (toolCall :: rest) messages = .error e) ∧
    (toolCall.name = some f → invoke f toolCall.arguments = .ok r →
       process_tool_call invoke toolCall messages =
         .ok (messages ++ [build_tool_message toolCall.id f r])) := by
  constructor
  · intro hn hi
    have hcall : process_tool_call invoke toolCall messages = .error e := by
      simp [process_tool_call, hn, hi]
    refine ⟨hcall, ?_⟩
    rw [process_tool_calls, hcall]
  · intro hn hi
    simp [process_tool_call, hn, hi]

/-- Witness for claim C3: at the concrete failing and succeeding calls the
amended theorem yields the abort and the appended tool message. -/
theorem C3_tool_errors_propagate_witness :
    (process_tool_call invokeBoom boomCall [] = .error "division by zero" ∧
     process_tool_calls invokeBoom [boomCall, echoCall] [] = .error "division by zero") ∧
    process_tool_call invokeBoom echoCall [] =
      .ok ([] ++ [build_tool_message echoCall.id "echo" "hi"]) :=
  ⟨(C3_tool_errors_propagate invokeBoom boomCall [echoCall] [] "boom" "division by zero"
      "hi").1 rfl rfl,
   (C3_tool_errors_propagate invokeBoom echoCall [] [] "echo" "division by zero"
      "hi").2 rfl rfl⟩

/- ### Claim C7 -/

/-- Claim C7, counterexample: on the simulated stream Hello, comma-space,
world, finish with flush threshold five, the code fires two intermediate
asynchronous flushes, not one: the chunk Hello fills the buffer to five
characters and flushes, and the chunk world refills it to seven characters
(comma-space plus world) and flushes again before the finish chunk arrives.
The claim that exactly one intermediate flush fires is false. -/
theorem C7_counterexample_two_intermediate_flushes :
    ((handle_litellm_stream id 5 "" chunksScenario).flushes.filter
        (fun f => f.2 = true)).length = 2 ∧
    ¬ ((handle_litellm_stream id 5 "" chunksScenario).flushes.filter
        (fun f => f.2 = true)).length = 1 := by
  constructor
  · rfl
  · intro h
    rw [show ((handle_litellm_stream id 5 "" chunksScenario).flushes.filter
        (fun f => f.2 = true)).length = 2 from rfl] at h
    cases h

/-- Claim C7, amended: on the simulated stream with flush threshold five,
exactly two intermediate asynchronous flushes fire — the first when Hello
reaches the threshold, the second when the buffered comma-space plus world
reaches it — and the final synchronous flush renders the full text
Hello, world with `with_loading_character=False`, so no loading glyph is
appended.  The display pipeline `render` is arbitrary as long as the
rendered intermediate texts stay within the 3500-byte continuation
ceiling. -/
theorem C7_stream_scenario_flushes (render : String → String) (t0 : String)
    (h1 : (render "Hello").utf8ByteSize ≤ 3500)
    (h2 : (render "Hello, world").utf8ByteSize ≤ 3500) :
    handle_litellm_stream render 5 t0 chunksScenario =
      { flushes := [("Hello", true), ("Hello, world", true), ("Hello, world", false)],
        content := "Hello, world", isResponseTooLong := false } := by
  have e1 : ("" : String) ++ "Hello" = "Hello" := rfl
  have e2 : ("" : String) ++ ", " = ", " := rfl
  have e3 : ("Hello" : String) ++ ", " = "Hello, " := rfl
  have e4 : (", " : String) ++ "world" = ", world" := rfl
  have e5 : ("Hello, " : String) ++ "world" = "Hello, world" := rfl
  have hn1 : ¬ (3500 < (render "Hello").utf8ByteSize) := by omega
  have hn2 : ¬ (3500 < (render "Hello, world").utf8ByteSize) := by omega
  have l1 : ("Hello" : String).length = 5 := rfl
  have l2 : (", " : String).length = 2 := rfl
  have l3 : (", world" : String).length = 7 := rfl
  have l4 : ("Hello, world" : String).length = 12 := rfl
  simp only [handle_litellm_stream, handleStreamGo, chunksScenario, extract_delta_content,
    is_final_chunk, e1, e2, e3, e4, e5, l1, l2, l3, l4]
  norm_num [hn1, hn2, l4]

/-- Witness for claim C7: the identity renderer keeps both snapshots within
the byte ceiling and the amended theorem computes the flush list. -/
theorem C7_stream_scenario_flushes_witness :
    (id "Hello" : String).utf8ByteSize ≤ 3500 ∧
    (id "Hello, world" : String).utf8ByteSize ≤ 3500 ∧
    handle_litellm_stream id 5 "" chunksScenario =
      { flushes := [("Hello", true), ("Hello, world", true), ("Hello, world", false)],
        content := "Hello, world", isResponseTooLong := false } :=
  ⟨by decide, by decide, C7_stream_scenario_flushes id "" (by decide) (by decide)⟩

/- ### Lemmas about mention removal -/

/-- The mention scanner is the identity when the mention token occurs nowhere
in the text. -/
theorem removeBotMentionGo_id (mention l : List Char)
    (h : hasOccurrence mention l = false) :
    removeBotMentionGo mention l = l := by
  induction l with
  | nil => rw [removeBotMentionGo]
  | cons c cs ih =>
    rw [hasOccurrence] at h
    have hpre : mention.isPrefixOf (c :: cs) = false := by
      cases hb : mention.isPrefixOf (c :: cs)
      · rfl
      · rw [hb] at h; simp at h
    have hcs : hasOccurrence mention cs = false := by
      cases hb : hasOccurrence mention cs
      · rfl
      · rw [hb] at h; simp at h
    rw [removeBotMentionGo]
    rw [if_neg (by simp [hpre])]
    rw [ih hcs]

/-- Dropping an all-whitespace run stops exactly at a non-whitespace head. -/
theorem dropWhile_ws_append (ws rest : List Char)
    (hws : ∀ c ∈ ws, pyWs c = true)
    (hrest : ∀ c, rest.head? = some c → pyWs c = false) :
    (ws ++ rest).dropWhile pyWs = rest := by
  induction ws with
  | nil =>
    match hr : rest with
    | [] => rfl
    | r :: rs =>
      have := hrest r rfl
      simp [List.dropWhile_cons, this]
  | cons w wtl ih =>
    have hw := hws w (by simp)
    simp only [List.cons_append, List.dropWhile_cons, hw]
    simp only [if_pos]
    exact ih (fun c hc => hws c (by simp [hc]))

/-- At a leading mention the scanner removes the token and the following
whitespace run and continues after them. -/
theorem removeBotMentionGo_strip (mention ws rest : List Char) (hm : mention ≠ [])
    (hws : ∀ c ∈ ws, pyWs c = true)
    (hrest : ∀ c, rest.head? = some c → pyWs c = false) :
    removeBotMentionGo mention (mention ++ ws ++ rest) =
      removeBotMentionGo mention rest := by
  match hmm : mention with
  | mc :: mtl =>
    rw [show (mc :: mtl) ++ ws ++ rest = mc :: (mtl ++ ws ++ rest) from by simp]
    rw [removeBotMentionGo]
    have hpre : (mc :: mtl).isPrefixOf (mc :: (mtl ++ ws ++ rest)) = true := by
      rw [List.isPrefixOf_iff_prefix]
      rw [show mc :: (mtl ++ ws ++ rest) = (mc :: mtl) ++ (ws ++ rest) from by simp]
      exact List.prefix_append _ _
    rw [if_pos ⟨by simp, hpre⟩]
    have hdrop : (mc :: (mtl ++ ws ++ rest)).drop (mc :: mtl).length = ws ++ rest := by
      rw [show mc :: (mtl ++ ws ++ rest) = (mc :: mtl) ++ (ws ++ rest) from by simp]
      exact List.drop_left _ _
    rw [hdrop, dropWhile_ws_append ws rest hws hrest]

/- ### Claim C8 -/

/-- Claim C8, counterexample: `remove_bot_mention` is built on a global
`re.sub`, so a mention of the bot appearing only later in the string is also
removed — the text hi, mention of U1, x becomes hi x instead of being
returned unchanged as the claim requires for a text with no leading
mention. -/
theorem C8_counterexample_interior_mention_removed :
    remove_bot_mention "hi <@U1> x" (some "U1") = "hi x" ∧
    ("hi x" : String) ≠ "hi <@U1> x" := by
  constructor
  · simp [remove_bot_mention, removeBotMentionGo, pyWs]
  · decide

/-- Claim C8, amended: `remove_bot_mention` removes every occurrence of the
bot mention token together with the whitespace run immediately following it,
wherever the occurrence appears; in particular a leading mention plus
following whitespace is stripped and the scan continues on the remainder.
The function is the identity when the bot id is absent (None) and when the
mention token occurs nowhere in the text. -/
theorem C8_mention_removal (b : String) (ws rest : List Char) (text : String)
    (hb : b ≠ "") :
    (remove_bot_mention text none = text) ∧
    (hasOccurrence ("<@" ++ b ++ ">").data text.data = false →
       remove_bot_mention text (some b) = text) ∧
    ((∀ c ∈ ws, pyWs c = true) → (∀ c, rest.head? = some c → pyWs c = false) →
       remove_bot_mention (String.mk (("<@" ++ b ++ ">").data ++ ws ++ rest)) (some b) =
         remove_bot_mention (String.mk rest) (some b)) := by
  have hmne : ("<@" ++ b ++ ">").data ≠ [] := by
    rw [String.data_append, String.data_append]
    simp [show ("<@" : String).data = ['<', '@'] from rfl]
  refine ⟨rfl, ?_, ?_⟩
  · intro hocc
    rw [remove_bot_mention, if_neg hb]
    rw [removeBotMentionGo_id _ _ hocc]
  · intro hws hrest
    rw [remove_bot_mention, remove_bot_mention, if_neg hb, if_neg hb]
    congr 1
    rw [show (String.mk (("<@" ++ b ++ ">").data ++ ws ++ rest)).data =
        ("<@" ++ b ++ ">").data ++ ws ++ rest from rfl]
    rw [show (String.mk rest).data = rest from rfl]
    exact removeBotMentionGo_strip _ ws rest hmne hws hrest

/-- Witness for claim C8: the unit-test vectors — a leading mention with
following whitespace is stripped, and a text with a different user mention
only (no occurrence of the bot mention) is unchanged. -/
theorem C8_mention_removal_witness :
    remove_bot_mention (String.mk (("<@" ++ "U12345" ++ ">").data ++ [' ', ' '] ++
        "hello".data)) (some "U12345") =
      remove_bot_mention (String.mk "hello".data) (some "U12345") ∧
    remove_bot_mention "<@U67890> hello" (some "U12345") = "<@U67890> hello" ∧
    remove_bot_mention "<@None> hello" none = "<@None> hello" := by
  refine ⟨?_, ?_, ?_⟩
  · exact (C8_mention_removal "U12345" [' ', ' '] "hello".data
      (String.mk (("<@" ++ "U12345" ++ ">").data ++ [' ', ' '] ++ "hello".data))
      (by decide)).2.2 (by decide) (by decide)
  · exact (C8_mention_removal "U12345" [] [] "<@U67890> hello" (by decide)).2.1 (by decide)
  · exact (C8_mention_removal "U12345" [] [] "<@None> hello" (by decide)).1

/- ### Lemmas about cache points -/

/-- The marking loop passes over messages that are not user messages. -/
theorem markLastTwoUsersGo_skip (found : Nat) (a : List Msg) (b : List Msg)
    (ha : ∀ m ∈ a, m.role ≠ "user") :
    markLastTwoUsersGo found (a ++ b) =
      (markLastTwoUsersGo found b).map (fun r => a ++ r) := by
  induction a with
  | nil =>
    simp only [List.nil_append]
    cases markLastTwoUsersGo found b
    · rfl
    · rfl
  | cons m ms ih =>
    have hm := ha m (by simp)
    simp only [List.cons_append, markLastTwoUsersGo, if_neg hm]
    simp only [List.append_eq]
    rw [ih (fun x hx => ha x (by simp [hx]))]
    cases markLastTwoUsersGo found b
    · rfl
    · rfl

/- ### Claim C10 -/

/-- Claim C10: `maybe_set_cache_points` returns the list entirely unchanged
unless prompt caching is enabled, the total token count is at least 1024 and
the list holds at least two user messages; when the conditions hold it
replaces exactly the two most recent user messages by their marked versions
(`setCacheControlOnLast` sets the ephemeral cache marker on the last content
part and changes nothing else) and leaves every other message untouched. -/
theorem C10_cache_points_frame :
    (∀ (messages : List Msg) (totalTokens : Nat) (enabled : Bool),
       ¬ (enabled = true ∧ 1024 ≤ totalTokens ∧
           2 ≤ (messages.filter (fun m => m.role = "user")).length) →
       maybe_set_cache_points messages totalTokens enabled = some messages) ∧
    (∀ (pre mid post : List Msg) (u1 u2 u1m u2m : Msg) (totalTokens : Nat),
       1024 ≤ totalTokens →
       u1.role = "user" → u2.role = "user" →
       (∀ m ∈ mid, m.role ≠ "user") → (∀ m ∈ post, m.role ≠ "user") →
       setCacheControlOnLast u1 = some u1m → setCacheControlOnLast u2 = some u2m →
       maybe_set_cache_points (pre ++ u2 :: mid ++ u1 :: post) totalTokens true =
         some (pre ++ u2m :: mid ++ u1m :: post)) := by
  constructor
  · intro messages totalTokens enabled hcond
    rw [maybe_set_cache_points, if_pos hcond]
  · intro pre mid post u1 u2 u1m u2m totalTokens htok h1 h2 hmid hpost hm1 hm2
    have hcount : 2 ≤ ((pre ++ u2 :: mid ++ u1 :: post).filter
        (fun m => m.role = "user")).length := by
      simp [List.filter_append, List.filter_cons, h1, h2]
      omega
    rw [maybe_set_cache_points, if_neg (not_not_intro ⟨rfl, htok, hcount⟩)]
    have hrev : (pre ++ u2 :: mid ++ u1 :: post).reverse =
        post.reverse ++ u1 :: (mid.reverse ++ u2 :: pre.reverse) := by
      simp
    rw [hrev]
    rw [markLastTwoUsersGo_skip 0 post.reverse _
      (fun m hm => hpost m (List.mem_reverse.mp hm))]
    rw [show markLastTwoUsersGo 0 (u1 :: (mid.reverse ++ u2 :: pre.reverse)) =
        (markLastTwoUsersGo 1 (mid.reverse ++ u2 :: pre.reverse)).map
          (fun r => u1m :: r) from by
      rw [markLastTwoUsersGo, if_pos h1, hm1]
      norm_num]
    rw [markLastTwoUsersGo_skip 1 mid.reverse _
      (fun m hm => hmid m (List.mem_reverse.mp hm))]
    rw [show markLastTwoUsersGo 1 (u2 :: pre.reverse) = some (u2m :: pre.reverse) from by
      rw [markLastTwoUsersGo, if_pos h2, hm2]
      norm_num]
    simp

/-- Witness for claim C10: one concrete disabled call returns the list
unchanged, and one concrete enabled call marks the last parts of the two most
recent user messages. -/
theorem C10_cache_points_frame_witness :
    maybe_set_cache_points [sysMsg, usrMsg] 2000 false = some [sysMsg, usrMsg] ∧
    maybe_set_cache_points
        ([sysMsg] ++
          { role := "user", content := MsgContent.parts [{ partType := "text", text := "a" }] } ::
          [astMsg] ++
          { role := "user", content := MsgContent.parts [{ partType := "text", text := "b" }] } :: []) 2000 true =
      some ([sysMsg] ++
        { role := "user", content := MsgContent.parts [{ partType := "text", text := "a", cacheControl := some "ephemeral" }] } ::
        [astMsg] ++
        { role := "user", content := MsgContent.parts [{ partType := "text", text := "b", cacheControl := some "ephemeral" }] } :: []) := by
  constructor
  · exact C10_cache_points_frame.1 [sysMsg, usrMsg] 2000 false (by simp)
  · exact C10_cache_points_frame.2 [sysMsg] [astMsg] []
      { role := "user", content := MsgContent.parts [{ partType := "text", text := "b" }] }
      { role := "user", content := MsgContent.parts [{ partType := "text", text := "a" }] }
      { role := "user", content := MsgContent.parts [{ partType := "text", text := "b", cacheControl := some "ephemeral" }] }
      { role := "user", content := MsgContent.parts [{ partType := "text", text := "a", cacheControl := some "ephemeral" }] }
      2000 (by omega) rfl rfl (by simp [astMsg]) (by simp) (by rfl) (by rfl)

/- ### Lemmas about the emphasis scanners -/

/-- A marker-free run yields no split. -/
theorem takeUntil_not_mem (m : Char) (l : List Char) (h : m ∉ l) :
    takeUntil m l = none := by
  induction l with
  | nil => rfl
  | cons c cs ih =>
    rw [takeUntil]
    rw [if_neg (by intro hc; exact h (by simp [hc]))]
    rw [ih (by intro hc; exact h (by simp [hc]))]
    rfl

/-- Splitting at the first marker after a marker-free run. -/
theorem takeUntil_append_mark (m : Char) (a b : List Char) (h : m ∉ a) :
    takeUntil m (a ++ m :: b) = some (a, b) := by
  induction a with
  | nil => simp [takeUntil]
  | cons c cs ih =>
    rw [List.cons_append, takeUntil]
    rw [if_neg (by intro hc; exact h (by simp [hc]))]
    rw [ih (by intro hc; exact h (by simp [hc]))]
    rfl

/-- The last element of a nonempty list via the default-valued accessor. -/
theorem getLast?_cons_eq_getLastD (c : Char) (cs : List Char) :
    (c :: cs).getLast? = some (cs.getLastD c) := by
  induction cs generalizing c with
  | nil => rfl
  | cons d ds ih =>
    rw [List.getLast?_cons_cons, List.getLastD_cons]
    exact ih d

/-- Content words of the admissible class pass the content test of the
regexes. -/
theorem okContent_of_goodW (w : List Char) (h : GoodW w) : okContent w = true := by
  obtain ⟨hne, hchars, hhead, hlast⟩ := h
  match hw : w with
  | [] => exact absurd rfl hne
  | c :: cs =>
    rw [okContent]
    have hh : pyWs c = false := hhead c rfl
    have hl : pyWs (cs.getLastD c) = false := hlast _ (getLast?_cons_eq_getLastD c cs)
    have hnl : (c :: cs).contains '\n' = false := by
      rw [List.contains_eq_any_beq]
      rw [List.any_eq_false]
      intro x hx hbe
      exact (hchars x hx).2.2.2.1 (beq_iff_eq.mp hbe).symm
    rw [hh, hl, hnl]
    rfl

/-- The single-marker scanner passes over marker-free text. -/
theorem subSingleGo_skip (m : Char) (pre post : List Char) (a b : List Char)
    (h : ∀ c ∈ a, c ≠ m) :
    subSingleGo m pre post (a ++ b) = a ++ subSingleGo m pre post b := by
  induction a with
  | nil => rfl
  | cons c cs ih =>
    rw [List.cons_append, subSingleGo]
    rw [if_neg (h c (by simp))]
    rw [ih (fun x hx => h x (by simp [hx]))]
    rfl

/-- The single-marker scanner rewrites one marker pair with admissible
content and scans on after it. -/
theorem subSingleGo_mark (m : Char) (pre post : List Char) (w b : List Char)
    (hmem : m ∉ w) (hok : okContent w = true) :
    subSingleGo m pre post (m :: w ++ m :: b) =
      pre ++ w ++ post ++ subSingleGo m pre post b := by
  rw [subSingleGo.eq_def]
  split
  · rename_i heq
    cases heq
  · rename_i c cs heq
    cases heq
    rw [if_pos rfl]
    split
    · rename_i content rest heq2
      rw [show w.append (m :: b) = w ++ m :: b from rfl] at heq2
      rw [takeUntil_append_mark m w b hmem] at heq2
      cases heq2
      simp [hok]
    · rename_i heq2
      rw [show w.append (m :: b) = w ++ m :: b from rfl] at heq2
      rw [takeUntil_append_mark m w b hmem] at heq2
      cases heq2

/-- The double-marker scanner fixes the empty list. -/
theorem subDoubleGo_nil (m : Char) (pre post : List Char) :
    subDoubleGo m pre post [] = [] := by
  rw [subDoubleGo.eq_def]

/-- The double-marker scanner fixes a single character. -/
theorem subDoubleGo_single (m : Char) (pre post : List Char) (x : Char) :
    subDoubleGo m pre post [x] = [x] := by
  rw [subDoubleGo.eq_def]

/-- The double-marker scanner passes over marker-free text. -/
theorem subDoubleGo_skip (m : Char) (pre post : List Char) (a b : List Char)
    (h : ∀ c ∈ a, c ≠ m) :
    subDoubleGo m pre post (a ++ b) = a ++ subDoubleGo m pre post b := by
  induction a with
  | nil => rfl
  | cons c cs ih =>
    have hc := h c (by simp)
    match hrest : cs ++ b with
    | [] =>
      have hcs : cs = [] := by
        cases cs
        · rfl
        · simp at hrest
      have hb : b = [] := by
        rw [hcs] at hrest
        simpa using hrest
      rw [List.cons_append, hrest, hcs, hb, subDoubleGo_single, subDoubleGo_nil]
      simp
    | x :: xs =>
      rw [List.cons_append, hrest, subDoubleGo.eq_def]
      split
      · rename_i c1 c2 rest heq
        cases heq
        rw [if_neg (fun hcon => hc hcon.1)]
        rw [← hrest, ih (fun y hy => h y (by simp [hy]))]
        rfl
      · rename_i hno
        exact absurd rfl (hno c x xs)

/-- The double-marker scanner rewrites one double-marker pair with
admissible content and scans on after it. -/
theorem subDoubleGo_mark (m : Char) (pre post : List Char) (w b : List Char)
    (hmem : m ∉ w) (hok : okContent w = true) :
    subDoubleGo m pre post (m :: m :: (w ++ m :: m :: b)) =
      pre ++ w ++ post ++ subDoubleGo m pre post b := by
  rw [subDoubleGo.eq_def]
  split
  · rename_i c1 c2 rest heq
    cases heq
    rw [if_pos ⟨rfl, rfl⟩]
    split
    · rename_i content more heq2
      rw [takeUntil_append_mark m w (m :: b) hmem] at heq2
      cases heq2
      change (if m = m ∧ okContent w = true then
          pre ++ w ++ post ++ subDoubleGo m pre post b
        else m :: subDoubleGo m pre post (m :: (w ++ m :: m :: b))) = _
      rw [if_pos ⟨rfl, hok⟩]
    · rename_i heq2
      rw [takeUntil_append_mark m w (m :: b) hmem] at heq2
      cases heq2
  · rename_i hno
    exact absurd rfl (hno m m (w ++ m :: m :: b))

/-- The double-marker scanner passes over a single-marker pair with
marker-free nonempty content when the next character is not the marker. -/
theorem subDoubleGo_singlepair (m : Char) (pre post : List Char) (w b : List Char)
    (hmem : ∀ c ∈ w, c ≠ m) (hne : w ≠ [])
    (hb : b.head? ≠ some m) :
    subDoubleGo m pre post (m :: (w ++ m :: b)) =
      m :: (w ++ m :: subDoubleGo m pre post b) := by
  match hw : w with
  | [] => exact absurd rfl hne
  | wc :: wrest =>
    have hwc := hmem wc (by simp)
    simp only [List.cons_append]
    rw [subDoubleGo.eq_def]
    split
    · rename_i c1 c2 rest heq
      cases heq
      rw [if_neg (fun hcon => hwc hcon.2)]
      rw [show wc :: (wrest ++ m :: b) = (wc :: wrest) ++ (m :: b) from by simp]
      rw [subDoubleGo_skip m pre post (wc :: wrest) (m :: b) hmem]
      match hbb : b with
      | [] =>
        rw [subDoubleGo_single, subDoubleGo_nil]
        simp
      | x :: xs =>
        have hx : x ≠ m := by
          intro hcon
          simp [hcon] at hb
        rw [subDoubleGo.eq_def]
        split
        · rename_i d1 d2 rest2 heq2
          cases heq2
          rw [if_neg (fun hcon => hx hcon.2)]
          simp
        · rename_i hno
          exact absurd rfl (hno m x xs)
    · rename_i hno
      exact absurd rfl (hno m wc (wrest ++ m :: b))

/-- The triple-marker scanner fixes the empty list. -/
theorem subTripleGo_nil (m : Char) (pre post : List Char) :
    subTripleGo m pre post [] = [] := by
  rw [subTripleGo.eq_def]

/-- The triple-marker scanner fixes a single character. -/
theorem subTripleGo_single (m : Char) (pre post : List Char) (x : Char) :
    subTripleGo m pre post [x] = [x] := by
  rw [subTripleGo.eq_def]

/-- The triple-marker scanner fixes a pair of characters. -/
theorem subTripleGo_pair (m : Char) (pre post : List Char) (x y : Char) :
    subTripleGo m pre post [x, y] = [x, y] := by
  rw [subTripleGo.eq_def]

/-- The triple-marker scanner passes over marker-free text. -/
theorem subTripleGo_skip (m : Char) (pre post : List Char) (a b : List Char)
    (h : ∀ c ∈ a, c ≠ m) :
    subTripleGo m pre post (a ++ b) = a ++ subTripleGo m pre post b := by
  induction a with
  | nil => rfl
  | cons c cs ih =>
    have hc := h c (by simp)
    match hrest : cs ++ b with
    | [] =>
      have hcs : cs = [] := by
        cases cs
        · rfl
        · simp at hrest
      have hb : b = [] := by
        rw [hcs] at hrest
        simpa using hrest
      rw [List.cons_append, hrest, hcs, hb, subTripleGo_single, subTripleGo_nil]
      simp
    | [x] =>
      have hgb : subTripleGo m pre post b = b := by
        match hbx : b with
        | [] => exact subTripleGo_nil m pre post
        | [y] => exact subTripleGo_single m pre post y
        | y :: z :: ys =>
          have := congrArg List.length hrest
          simp at this
          omega
      rw [List.cons_append, hrest, subTripleGo_pair, ← hrest, hgb]
      simp
    | x :: y :: xs =>
      rw [List.cons_append, hrest, subTripleGo.eq_def]
      split
      · rename_i c1 c2 c3 rest heq
        cases heq
        rw [if_neg (fun hcon => hc hcon.1)]
        rw [← hrest, ih (fun y hy => h y (by simp [hy]))]
        rfl
      · rename_i hno
        exact absurd rfl (hno c x y xs)

/-- The triple-marker scanner emits a marker followed by a non-marker and
rescans from the non-marker. -/
theorem subTripleGo_mx (m : Char) (pre post : List Char) (x : Char) (rest : List Char)
    (hx : x ≠ m) :
    subTripleGo m pre post (m :: x :: rest) = m :: subTripleGo m pre post (x :: rest) := by
  match hr : rest with
  | [] => rw [subTripleGo_pair, subTripleGo_single]
  | r :: rs =>
    rw [subTripleGo.eq_def]
    split
    · rename_i c1 c2 c3 rest2 heq
      cases heq
      rw [if_neg (fun hcon => hx hcon.2.1)]
    · rename_i hno
      exact absurd rfl (hno m x r rs)

/-- The triple-marker scanner emits two markers when the following character
is not the marker. -/
theorem subTripleGo_mm (m : Char) (pre post : List Char) (b : List Char)
    (hb : b.head? ≠ some m) :
    subTripleGo m pre post (m :: m :: b) = m :: m :: subTripleGo m pre post b := by
  match hbb : b with
  | [] => rw [subTripleGo_pair, subTripleGo_nil]
  | x :: xs =>
    have hx : x ≠ m := by
      intro hcon
      simp [hcon] at hb
    rw [subTripleGo.eq_def]
    split
    · rename_i c1 c2 c3 rest2 heq
      cases heq
      rw [if_neg (fun hcon => hx hcon.2.2)]
      rw [subTripleGo_mx m pre post x xs hx]
    · rename_i hno
      exact absurd rfl (hno m m x xs)

/-- The triple-marker scanner passes over a double-marker pair with
marker-free nonempty content when the next character is not the marker. -/
theorem subTripleGo_doublepair (m : Char) (pre post : List Char) (w b : List Char)
    (hmem : ∀ c ∈ w, c ≠ m) (hne : w ≠ []) (hb : b.head? ≠ some m) :
    subTripleGo m pre post (m :: m :: (w ++ m :: m :: b)) =
      m :: m :: (w ++ m :: m :: subTripleGo m pre post b) := by
  match hw : w with
  | [] => exact absurd rfl hne
  | wc :: wrest =>
    have hwc := hmem wc (by simp)
    simp only [List.cons_append]
    rw [subTripleGo.eq_def]
    split
    · rename_i c1 c2 c3 rest heq
      cases heq
      rw [if_neg (fun hcon => hwc hcon.2.2)]
      rw [show m :: wc :: (wrest ++ m :: m :: b) =
        m :: wc :: (wrest ++ m :: m :: b) from rfl]
      rw [subTripleGo_mx m pre post wc (wrest ++ m :: m :: b) hwc]
      rw [show wc :: (wrest ++ m :: m :: b) = (wc :: wrest) ++ (m :: m :: b) from by simp]
      rw [subTripleGo_skip m pre post (wc :: wrest) (m :: m :: b) hmem]
      rw [subTripleGo_mm m pre post b hb]
      simp
    · rename_i hno
      exact absurd rfl (hno m m wc (wrest ++ m :: m :: b))

/-- The triple-marker scanner passes over a single-marker pair with
marker-free nonempty content when the next character is not the marker. -/
theorem subTripleGo_singlepair (m : Char) (pre post : List Char) (w b : List Char)
    (hmem : ∀ c ∈ w, c ≠ m) (hne : w ≠ []) (hb : b.head? ≠ some m) :
    subTripleGo m pre post (m :: (w ++ m :: b)) =
      m :: (w ++ m :: subTripleGo m pre post b) := by
  match hw : w with
  | [] => exact absurd rfl hne
  | wc :: wrest =>
    have hwc := hmem wc (by simp)
    simp only [List.cons_append]
    rw [subTripleGo_mx m pre post wc (wrest ++ m :: b) hwc]
    rw [show wc :: (wrest ++ m :: b) = (wc :: wrest) ++ (m :: b) from by simp]
    rw [subTripleGo_skip m pre post (wc :: wrest) (m :: b) hmem]
    match hbb : b with
    | [] =>
      rw [subTripleGo_single, subTripleGo_nil]
      simp
    | x :: xs =>
      have hx : x ≠ m := by
        intro hcon
        simp [hcon] at hb
      rw [subTripleGo_mx m pre post x xs hx]
      simp

/-- The guarded single-star scanner fixes the empty list. -/
theorem subStarGuardGo_nil (prev : Option Char) :
    subStarGuardGo prev [] = [] := by
  rw [subStarGuardGo.eq_def]

/-- The guarded single-star scanner passes over star-free text, tracking the
previous original character. -/
theorem subStarGuardGo_skip (a b : List Char) (c : Char)
    (h : ∀ x ∈ c :: a, x ≠ '*') :
    ∀ prev, subStarGuardGo prev ((c :: a) ++ b) =
      (c :: a) ++ subStarGuardGo (some (a.getLastD c)) b := by
  induction a generalizing c with
  | nil =>
    intro prev
    have hc := h c (by simp)
    rw [List.cons_append, subStarGuardGo.eq_def]
    split
    · rename_i heq
      cases heq
    · rename_i c2 cs2 heq
      cases heq
      rw [if_neg (fun hcon => hc hcon.1)]
      rfl
  | cons d ds ih =>
    intro prev
    have hc := h c (by simp)
    rw [List.cons_append, subStarGuardGo.eq_def]
    split
    · rename_i heq
      cases heq
    · rename_i c2 cs2 heq
      cases heq
      rw [if_neg (fun hcon => hc hcon.1)]
      rw [show d :: ds ++ b = (d :: ds) ++ b from rfl]
      rw [ih d (fun x hx => h x (by simp at hx ⊢; tauto)) (some c)]
      rw [List.getLastD_cons]
      rfl

/-- After a star, a second star is emitted unchanged (the lookbehind rejects
the position). -/
theorem subStarGuardGo_prevstar (rest : List Char) :
    subStarGuardGo (some '*') ('*' :: rest) = '*' :: subStarGuardGo (some '*') rest := by
  rw [subStarGuardGo.eq_def]
  split
  · rename_i heq
    cases heq
  · rename_i c2 cs2 heq
    cases heq
    rw [if_neg (fun hcon => hcon.2.1 rfl)]

/-- At a double star the match fails on empty content and one star is
emitted, whatever the previous character. -/
theorem subStarGuardGo_starstar (prev : Option Char) (rest : List Char) :
    subStarGuardGo prev ('*' :: '*' :: rest) =
      '*' :: subStarGuardGo (some '*') ('*' :: rest) := by
  rw [subStarGuardGo.eq_def]
  split
  · rename_i heq
    cases heq
  · rename_i c2 cs2 heq
    cases heq
    by_cases hcond : ('*' : Char) = '*' ∧ prev ≠ some '*' ∧ prev ≠ some '_'
    · rw [if_pos hcond]
      have htu : takeUntil '*' ('*' :: rest) = some ([], rest) := by
        rw [takeUntil]
        simp
      split
      · rename_i content rest2 heq2
        rw [htu] at heq2
        cases heq2
        rw [if_neg (fun hcon => by
          have hoc : okContent ([] : List Char) = true := hcon.1
          rw [okContent] at hoc
          exact Bool.false_ne_true hoc)]
      · rename_i heq2
        rw [htu] at heq2
    · rw [if_neg hcond]

/-- The guarded single-star scanner rewrites a single-star pair with
admissible content into the underscore form. -/
theorem subStarGuardGo_mark (prev : Option Char) (w b : List Char)
    (hprev1 : prev ≠ some '*') (hprev2 : prev ≠ some '_')
    (hmem : '*' ∉ w) (hok : okContent w = true)
    (hb1 : b.head? ≠ some '*') (hb2 : b.head? ≠ some '_') :
    subStarGuardGo prev ('*' :: (w ++ '*' :: b)) =
      '_' :: (w ++ '_' :: subStarGuardGo (some '*') b) := by
  rw [subStarGuardGo.eq_def]
  split
  · rename_i heq
    cases heq
  · rename_i c2 cs2 heq
    cases heq
    rw [if_pos ⟨rfl, hprev1, hprev2⟩]
    split
    · rename_i content rest2 heq2
      rw [takeUntil_append_mark '*' w b hmem] at heq2
      cases heq2
      rw [if_pos ⟨hok, hb1, hb2⟩]
      simp
    · rename_i heq2
      rw [takeUntil_append_mark '*' w b hmem] at heq2
      cases heq2

/-- The guarded single-star scanner passes over a double-star pair with
star-free nonempty content. -/
theorem subStarGuardGo_bold (prev : Option Char) (w b : List Char)
    (hmem : ∀ x ∈ w, x ≠ '*') (hne : w ≠ []) :
    subStarGuardGo prev ('*' :: '*' :: (w ++ '*' :: '*' :: b)) =
      '*' :: '*' :: (w ++ '*' :: '*' :: subStarGuardGo (some '*') b) := by
  match hw : w with
  | [] => exact absurd rfl hne
  | wc :: wrest =>
    rw [subStarGuardGo_starstar prev ((wc :: wrest) ++ '*' :: '*' :: b)]
    rw [show ('*' : Char) :: ((wc :: wrest) ++ '*' :: '*' :: b) =
      '*' :: wc :: (wrest ++ '*' :: '*' :: b) from by simp]
    rw [subStarGuardGo_prevstar (wc :: (wrest ++ '*' :: '*' :: b))]
    rw [show (wc :: (wrest ++ '*' :: '*' :: b)) = (wc :: wrest) ++ ('*' :: '*' :: b) from
      by simp]
    rw [subStarGuardGo_skip wrest ('*' :: '*' :: b) wc hmem (some '*')]
    rw [subStarGuardGo_starstar (some (wrest.getLastD wc)) b]
    rw [subStarGuardGo_prevstar b]

/-- The single-marker scanner fixes the empty list. -/
theorem subSingleGo_nil (m : Char) (pre post : List Char) :
    subSingleGo m pre post [] = [] := by
  rw [subSingleGo.eq_def]

/-- Admissible content words are nonempty. -/
theorem goodW_ne_nil {w : List Char} (h : GoodW w) : w ≠ [] := h.1

/-- Admissible content words carry no star. -/
theorem goodW_no_star {w : List Char} (h : GoodW w) : ∀ c ∈ w, c ≠ '*' :=
  fun c hc => (h.2.1 c hc).1

/-- Admissible content words carry no underscore. -/
theorem goodW_no_underscore {w : List Char} (h : GoodW w) : ∀ c ∈ w, c ≠ '_' :=
  fun c hc => (h.2.1 c hc).2.1

/-- Admissible content words carry no tilde. -/
theorem goodW_no_tilde {w : List Char} (h : GoodW w) : ∀ c ∈ w, c ≠ '~' :=
  fun c hc => (h.2.1 c hc).2.2.1

/-- Admissible content words carry no backtick. -/
theorem goodW_no_btick {w : List Char} (h : GoodW w) : ∀ c ∈ w, c ≠ btick :=
  fun c hc => (h.2.1 c hc).2.2.2.2

/-- A transformation acting unit-wise, fixing separators and the empty list,
maps the rendering with one per-unit form to the rendering with another. -/
theorem renderWith_stage (g : List Char → List Char) (fIn fOut : EmUnit → List Char)
    (us : List EmUnit)
    (hnil : g [] = [])
    (hsp : ∀ b, g (' ' :: b) = ' ' :: g b)
    (hg : ∀ u ∈ us, ∀ b : List Char, b = [] ∨ b.head? = some ' ' →
      g (fIn u ++ b) = fOut u ++ g b) :
    g (renderWith fIn us) = renderWith fOut us := by
  induction us with
  | nil => exact hnil
  | cons u us ih =>
    match us with
    | [] =>
      have := hg u (by simp) [] (Or.inl rfl)
      rw [List.append_nil] at this
      rw [show renderWith fIn [u] = fIn u from rfl,
        show renderWith fOut [u] = fOut u from rfl, this, hnil, List.append_nil]
    | v :: vs =>
      rw [show renderWith fIn (u :: v :: vs) = fIn u ++ ' ' :: renderWith fIn (v :: vs)
        from rfl]
      rw [hg u (by simp) (' ' :: renderWith fIn (v :: vs)) (Or.inr rfl)]
      rw [hsp]
      rw [ih (fun x hx b hb => hg x (by simp at hx ⊢; tauto) b hb)]
      rfl

/-- Members of a single-marker wrap are the marker or content characters. -/
theorem mem_single_wrap {w : List Char} {x c : Char}
    (hx : x ∈ c :: (w ++ [c])) : x = c ∨ x ∈ w := by
  simp at hx
  tauto

/-- Members of a double-marker wrap are the marker or content characters. -/
theorem mem_double_wrap {w : List Char} {x c : Char}
    (hx : x ∈ c :: c :: (w ++ [c, c])) : x = c ∨ x ∈ w := by
  simp at hx
  tauto

/-- A list that is empty or starts with a space does not start with a
non-space character. -/
theorem head_ne_of_sep {b : List Char} (hb : b = [] ∨ b.head? = some ' ')
    (m : Char) (hm : m ≠ ' ') : b.head? ≠ some m := by
  rcases hb with rfl | hh
  · simp
  · rw [hh]
    intro hcon
    exact hm (Option.some.inj hcon).symm

/-- Character data of the bold Markdown marker pair. -/
theorem dataStarStar : ("**" : String).data = ['*', '*'] := rfl

/-- Character data of the single-star marker. -/
theorem dataStar : ("*" : String).data = ['*'] := rfl

/-- Character data of the double-tilde marker. -/
theorem dataTildeTilde : ("~~" : String).data = ['~', '~'] := rfl

/-- Character data of the single-tilde marker. -/
theorem dataTilde : ("~" : String).data = ['~'] := rfl

/-- Character data of the bold-italic opening replacement. -/
theorem dataUScoreStar : ("_*" : String).data = ['_', '*'] := rfl

/-- Character data of the bold-italic closing replacement. -/
theorem dataStarUScore : ("*_" : String).data = ['*', '_'] := rfl

/-- First Slack-to-Markdown stage: the bold substitution sends the Slack
rendering to the `unitA` rendering. -/
theorem stageSlackBold (us : List EmUnit) (h : ∀ u ∈ us, GoodW u.content) :
    subSingleGo '*' "**".data "**".data (renderWith renderUnit us) =
      renderWith unitA us := by
  apply renderWith_stage
  · exact subSingleGo_nil '*' "**".data "**".data
  · intro b
    exact subSingleGo_skip '*' "**".data "**".data [' '] b (by decide)
  · intro u hu b _
    have hgw := h u hu
    cases u with
    | bold w =>
      rw [show renderUnit (EmUnit.bold w) ++ b = ('*' :: w) ++ ('*' :: b) from by
        simp [renderUnit]]
      rw [subSingleGo_mark '*' "**".data "**".data w b
        (fun hc => goodW_no_star hgw '*' hc rfl) (okContent_of_goodW w hgw)]
      simp [unitA, dataStarStar]
    | ital w =>
      exact subSingleGo_skip '*' "**".data "**".data (renderUnit (EmUnit.ital w)) b
        (by intro x hx
            simp only [renderUnit] at hx
            rcases mem_single_wrap hx with rfl | hxw
            · decide
            · exact goodW_no_star hgw x hxw)
    | strike w =>
      exact subSingleGo_skip '*' "**".data "**".data (renderUnit (EmUnit.strike w)) b
        (by intro x hx
            simp only [renderUnit] at hx
            rcases mem_single_wrap hx with rfl | hxw
            · decide
            · exact goodW_no_star hgw x hxw)

/-- Second Slack-to-Markdown stage: the italic substitution sends the
`unitA` rendering to the `unitB` rendering. -/
theorem stageSlackItal (us : List EmUnit) (h : ∀ u ∈ us, GoodW u.content) :
    subSingleGo '_' "*".data "*".data (renderWith unitA us) =
      renderWith unitB us := by
  apply renderWith_stage
  · exact subSingleGo_nil '_' "*".data "*".data
  · intro b
    exact subSingleGo_skip '_' "*".data "*".data [' '] b (by decide)
  · intro u hu b _
    have hgw := h u hu
    cases u with
    | bold w =>
      exact subSingleGo_skip '_' "*".data "*".data (unitA (EmUnit.bold w)) b
        (by intro x hx
            simp only [unitA] at hx
            rcases mem_double_wrap hx with rfl | hxw
            · decide
            · exact goodW_no_underscore hgw x hxw)
    | ital w =>
      rw [show unitA (EmUnit.ital w) ++ b = ('_' :: w) ++ ('_' :: b) from by
        simp [unitA]]
      rw [subSingleGo_mark '_' "*".data "*".data w b
        (fun hc => goodW_no_underscore hgw '_' hc rfl) (okContent_of_goodW w hgw)]
      simp [unitB, dataStar]
    | strike w =>
      exact subSingleGo_skip '_' "*".data "*".data (unitA (EmUnit.strike w)) b
        (by intro x hx
            simp only [unitA] at hx
            rcases mem_single_wrap hx with rfl | hxw
            · decide
            · exact goodW_no_underscore hgw x hxw)

/-- Third Slack-to-Markdown stage: the strikethrough substitution sends the
`unitB` rendering to the `unitC` rendering. -/
theorem stageSlackStrike (us : List EmUnit) (h : ∀ u ∈ us, GoodW u.content) :
    subSingleGo '~' "~~".data "~~".data (renderWith unitB us) =
      renderWith unitC us := by
  apply renderWith_stage
  · exact subSingleGo_nil '~' "~~".data "~~".data
  · intro b
    exact subSingleGo_skip '~' "~~".data "~~".data [' '] b (by decide)
  · intro u hu b _
    have hgw := h u hu
    cases u with
    | bold w =>
      exact subSingleGo_skip '~' "~~".data "~~".data (unitB (EmUnit.bold w)) b
        (by intro x hx
            simp only [unitB] at hx
            rcases mem_double_wrap hx with rfl | hxw
            · decide
            · exact goodW_no_tilde hgw x hxw)
    | ital w =>
      exact subSingleGo_skip '~' "~~".data "~~".data (unitB (EmUnit.ital w)) b
        (by intro x hx
            simp only [unitB] at hx
            rcases mem_single_wrap hx with rfl | hxw
            · decide
            · exact goodW_no_tilde hgw x hxw)
    | strike w =>
      rw [show unitB (EmUnit.strike w) ++ b = ('~' :: w) ++ ('~' :: b) from by
        simp [unitB]]
      rw [subSingleGo_mark '~' "~~".data "~~".data w b
        (fun hc => goodW_no_tilde hgw '~' hc rfl) (okContent_of_goodW w hgw)]
      simp [unitC, dataTildeTilde]

/-- First Markdown-to-Slack stage: the bold-italic substitution finds no
triple star in the `unitC` rendering and leaves it unchanged. -/
theorem stageTriple (us : List EmUnit) (h : ∀ u ∈ us, GoodW u.content) :
    subTripleGo '*' "_*".data "*_".data (renderWith unitC us) =
      renderWith unitC us := by
  apply renderWith_stage
  · exact subTripleGo_nil '*' "_*".data "*_".data
  · intro b
    exact subTripleGo_skip '*' "_*".data "*_".data [' '] b (by decide)
  · intro u hu b hb
    have hgw := h u hu
    cases u with
    | bold w =>
      rw [show unitC (EmUnit.bold w) ++ b =
        '*' :: '*' :: (w ++ '*' :: '*' :: b) from by simp [unitC]]
      rw [subTripleGo_doublepair '*' "_*".data "*_".data w b
        (goodW_no_star hgw) (goodW_ne_nil hgw) (head_ne_of_sep hb '*' (by decide))]
      simp [unitC]
    | ital w =>
      rw [show unitC (EmUnit.ital w) ++ b =
        '*' :: (w ++ '*' :: b) from by simp [unitC]]
      rw [subTripleGo_singlepair '*' "_*".data "*_".data w b
        (goodW_no_star hgw) (goodW_ne_nil hgw) (head_ne_of_sep hb '*' (by decide))]
      simp [unitC]
    | strike w =>
      exact subTripleGo_skip '*' "_*".data "*_".data (unitC (EmUnit.strike w)) b
        (by intro x hx
            simp only [unitC] at hx
            rcases mem_double_wrap hx with rfl | hxw
            · decide
            · exact goodW_no_star hgw x hxw)

/-- Third Markdown-to-Slack stage: the double-star substitution sends the
`unitD` rendering to the `unitE` rendering. -/
theorem stageMdBold (us : List EmUnit) (h : ∀ u ∈ us, GoodW u.content) :
    subDoubleGo '*' "*".data "*".data (renderWith unitD us) =
      renderWith unitE us := by
  apply renderWith_stage
  · exact subDoubleGo_nil '*' "*".data "*".data
  · intro b
    exact subDoubleGo_skip '*' "*".data "*".data [' '] b (by decide)
  · intro u hu b _
    have hgw := h u hu
    cases u with
    | bold w =>
      rw [show unitD (EmUnit.bold w) ++ b =
        '*' :: '*' :: (w ++ '*' :: '*' :: b) from by simp [unitD]]
      rw [subDoubleGo_mark '*' "*".data "*".data w b
        (fun hc => goodW_no_star hgw '*' hc rfl) (okContent_of_goodW w hgw)]
      simp [unitE, dataStar]
    | ital w =>
      exact subDoubleGo_skip '*' "*".data "*".data (unitD (EmUnit.ital w)) b
        (by intro x hx
            simp only [unitD] at hx
            rcases mem_single_wrap hx with rfl | hxw
            · decide
            · exact goodW_no_star hgw x hxw)
    | strike w =>
      exact subDoubleGo_skip '*' "*".data "*".data (unitD (EmUnit.strike w)) b
        (by intro x hx
            simp only [unitD] at hx
            rcases mem_double_wrap hx with rfl | hxw
            · decide
            · exact goodW_no_star hgw x hxw)

/-- Fourth Markdown-to-Slack stage: the double-underscore substitution finds
no double underscore in the `unitE` rendering and leaves it unchanged. -/
theorem stageMdUnderscore (us : List EmUnit) (h : ∀ u ∈ us, GoodW u.content) :
    subDoubleGo '_' "*".data "*".data (renderWith unitE us) =
      renderWith unitE us := by
  apply renderWith_stage
  · exact subDoubleGo_nil '_' "*".data "*".data
  · intro b
    exact subDoubleGo_skip '_' "*".data "*".data [' '] b (by decide)
  · intro u hu b hb
    have hgw := h u hu
    cases u with
    | bold w =>
      exact subDoubleGo_skip '_' "*".data "*".data (unitE (EmUnit.bold w)) b
        (by intro x hx
            simp only [unitE] at hx
            rcases mem_single_wrap hx with rfl | hxw
            · decide
            · exact goodW_no_underscore hgw x hxw)
    | ital w =>
      rw [show unitE (EmUnit.ital w) ++ b =
        '_' :: (w ++ '_' :: b) from by simp [unitE]]
      rw [subDoubleGo_singlepair '_' "*".data "*".data w b
        (goodW_no_underscore hgw) (goodW_ne_nil hgw)
        (head_ne_of_sep hb '_' (by decide))]
      simp [unitE]
    | strike w =>
      exact subDoubleGo_skip '_' "*".data "*".data (unitE (EmUnit.strike w)) b
        (by intro x hx
            simp only [unitE] at hx
            rcases mem_double_wrap hx with rfl | hxw
            · decide
            · exact goodW_no_underscore hgw x hxw)

/-- Fifth Markdown-to-Slack stage: the double-tilde substitution sends the
`unitE` rendering back to the Slack rendering. -/
theorem stageMdTilde (us : List EmUnit) (h : ∀ u ∈ us, GoodW u.content) :
    subDoubleGo '~' "~".data "~".data (renderWith unitE us) =
      renderWith renderUnit us := by
  apply renderWith_stage
  · exact subDoubleGo_nil '~' "~".data "~".data
  · intro b
    exact subDoubleGo_skip '~' "~".data "~".data [' '] b (by decide)
  · intro u hu b _
    have hgw := h u hu
    cases u with
    | bold w =>
      exact subDoubleGo_skip '~' "~".data "~".data (unitE (EmUnit.bold w)) b
        (by intro x hx
            simp only [unitE] at hx
            rcases mem_single_wrap hx with rfl | hxw
            · decide
            · exact goodW_no_tilde hgw x hxw)
    | ital w =>
      exact subDoubleGo_skip '~' "~".data "~".data (unitE (EmUnit.ital w)) b
        (by intro x hx
            simp only [unitE] at hx
            rcases mem_single_wrap hx with rfl | hxw
            · decide
            · exact goodW_no_tilde hgw x hxw)
    | strike w =>
      rw [show unitE (EmUnit.strike w) ++ b =
        '~' :: '~' :: (w ++ '~' :: '~' :: b) from by simp [unitE]]
      rw [subDoubleGo_mark '~' "~".data "~".data w b
        (fun hc => goodW_no_tilde hgw '~' hc rfl) (okContent_of_goodW w hgw)]
      simp [renderUnit, dataTilde]

/-- Second Markdown-to-Slack stage: the guarded single-star substitution
sends the `unitC` rendering to the `unitD` rendering, from any previous
character other than a star or an underscore. -/
theorem stageGuard (us : List EmUnit) :
    (∀ u ∈ us, GoodW u.content) →
    ∀ prev, prev ≠ some '*' → prev ≠ some '_' →
      subStarGuardGo prev (renderWith unitC us) = renderWith unitD us := by
  induction us with
  | nil =>
    intro _ prev _ _
    exact subStarGuardGo_nil prev
  | cons u us ih =>
    intro h prev hp1 hp2
    have hgw := h u (by simp)
    match us with
    | [] =>
      cases u with
      | bold w =>
        have hb := subStarGuardGo_bold prev w [] (goodW_no_star hgw) (goodW_ne_nil hgw)
        rw [subStarGuardGo_nil] at hb
        exact hb
      | ital w =>
        have hm := subStarGuardGo_mark prev w [] hp1 hp2
          (fun hc => goodW_no_star hgw '*' hc rfl) (okContent_of_goodW w hgw)
          (by simp) (by simp)
        rw [subStarGuardGo_nil] at hm
        exact hm
      | strike w =>
        have hs := subStarGuardGo_skip ('~' :: (w ++ ['~', '~'])) [] '~'
          (by intro x hx
              rcases mem_double_wrap hx with rfl | hxw
              · decide
              · exact goodW_no_star hgw x hxw) prev
        rw [List.append_nil, subStarGuardGo_nil, List.append_nil] at hs
        exact hs
    | v :: vs =>
      have htail : ∀ x ∈ v :: vs, GoodW x.content :=
        fun x hx => h x (by simp at hx ⊢; tauto)
      cases u with
      | bold w =>
        rw [show renderWith unitC (EmUnit.bold w :: v :: vs) =
            unitC (EmUnit.bold w) ++ ' ' :: renderWith unitC (v :: vs) from rfl,
          show renderWith unitD (EmUnit.bold w :: v :: vs) =
            unitD (EmUnit.bold w) ++ ' ' :: renderWith unitD (v :: vs) from rfl]
        rw [show unitC (EmUnit.bold w) ++ ' ' :: renderWith unitC (v :: vs) =
          '*' :: '*' :: (w ++ '*' :: '*' :: (' ' :: renderWith unitC (v :: vs)))
          from by simp [unitC]]
        rw [subStarGuardGo_bold prev w (' ' :: renderWith unitC (v :: vs))
          (goodW_no_star hgw) (goodW_ne_nil hgw)]
        rw [show (' ' :: renderWith unitC (v :: vs)) =
          ([' '] : List Char) ++ renderWith unitC (v :: vs) from rfl]
        rw [subStarGuardGo_skip [] (renderWith unitC (v :: vs)) ' ' (by decide)
          (some '*')]
        rw [ih htail (some (List.getLastD ([] : List Char) ' ')) (by decide) (by decide)]
        simp [unitD]
      | ital w =>
        rw [show renderWith unitC (EmUnit.ital w :: v :: vs) =
            unitC (EmUnit.ital w) ++ ' ' :: renderWith unitC (v :: vs) from rfl,
          show renderWith unitD (EmUnit.ital w :: v :: vs) =
            unitD (EmUnit.ital w) ++ ' ' :: renderWith unitD (v :: vs) from rfl]
        rw [show unitC (EmUnit.ital w) ++ ' ' :: renderWith unitC (v :: vs) =
          '*' :: (w ++ '*' :: (' ' :: renderWith unitC (v :: vs)))
          from by simp [unitC]]
        rw [subStarGuardGo_mark prev w (' ' :: renderWith unitC (v :: vs)) hp1 hp2
          (fun hc => goodW_no_star hgw '*' hc rfl) (okContent_of_goodW w hgw)
          (by simp) (by simp)]
        rw [show (' ' :: renderWith unitC (v :: vs)) =
          ([' '] : List Char) ++ renderWith unitC (v :: vs) from rfl]
        rw [subStarGuardGo_skip [] (renderWith unitC (v :: vs)) ' ' (by decide)
          (some '*')]
        rw [ih htail (some (List.getLastD ([] : List Char) ' ')) (by decide) (by decide)]
        simp [unitD]
      | strike w =>
        rw [show renderWith unitC (EmUnit.strike w :: v :: vs) =
            unitC (EmUnit.strike w) ++ ' ' :: renderWith unitC (v :: vs) from rfl,
          show renderWith unitD (EmUnit.strike w :: v :: vs) =
            unitD (EmUnit.strike w) ++ ' ' :: renderWith unitD (v :: vs) from rfl]
        rw [show unitC (EmUnit.strike w) ++ ' ' :: renderWith unitC (v :: vs) =
          ('~' :: ('~' :: (w ++ ['~', '~']))) ++ (' ' :: renderWith unitC (v :: vs))
          from by simp [unitC]]
        rw [subStarGuardGo_skip ('~' :: (w ++ ['~', '~']))
          (' ' :: renderWith unitC (v :: vs)) '~'
          (by intro x hx
              rcases mem_double_wrap hx with rfl | hxw
              · decide
              · exact goodW_no_star hgw x hxw) prev]
        rw [show (' ' :: renderWith unitC (v :: vs)) =
          ([' '] : List Char) ++ renderWith unitC (v :: vs) from rfl]
        rw [subStarGuardGo_skip [] (renderWith unitC (v :: vs)) ' ' (by decide)
          (some (List.getLastD ('~' :: (w ++ ['~', '~'])) '~'))]
        rw [ih htail (some (List.getLastD ([] : List Char) ' ')) (by decide) (by decide)]
        simp [unitD]

/-- On backtick-free input the code-part splitter returns a single non-code
part. -/
theorem codeSplitGo_no_btick (l : List Char) :
    ∀ acc, btick ∉ l → codeSplitGo acc l = [acc.reverse ++ l] := by
  induction l with
  | nil =>
    intro acc _
    rw [List.append_nil, codeSplitGo.eq_def]
  | cons c cs ih =>
    intro acc h
    have hc : c ≠ btick := fun hcon => h (by simp [hcon])
    rw [codeSplitGo.eq_def]
    split
    · rename_i heq
      cases heq
    · rename_i c1 cs1 heq
      cases heq
      rw [if_neg (fun hcon => hc hcon.1), if_neg hc]
      rw [ih (c :: acc) (fun hx => h (by simp [hx]))]
      simp

/-- A list free of the backtick does not start with it. -/
theorem head_ne_btick_of_not_mem {l : List Char} (h : btick ∉ l) :
    l.head? ≠ some btick := by
  match l with
  | [] => simp
  | c :: cs =>
    intro hcon
    rw [List.head?_cons] at hcon
    exact h (by
      rw [show btick = c from (Option.some.inj hcon).symm]
      exact List.mem_cons_self c cs)

/-- On backtick-free input both conversion functions reduce to their
emphasis pipeline. -/
theorem applyToNonCodeParts_no_btick (f : List Char → List Char) (l : List Char)
    (h : btick ∉ l) : applyToNonCodeParts f l = f l := by
  rw [applyToNonCodeParts, codeSplitGo_no_btick l [] h]
  simp [head_ne_btick_of_not_mem h]

/-- The Slack rendering of an admissible unit is backtick-free. -/
theorem btick_not_mem_renderUnit (u : EmUnit) (h : GoodW u.content) :
    btick ∉ renderUnit u := by
  cases u with
  | bold w =>
    intro hmem
    simp only [renderUnit] at hmem
    rcases mem_single_wrap hmem with hb | hxw
    · exact absurd hb (by decide)
    · exact goodW_no_btick h btick hxw rfl
  | ital w =>
    intro hmem
    simp only [renderUnit] at hmem
    rcases mem_single_wrap hmem with hb | hxw
    · exact absurd hb (by decide)
    · exact goodW_no_btick h btick hxw rfl
  | strike w =>
    intro hmem
    simp only [renderUnit] at hmem
    rcases mem_single_wrap hmem with hb | hxw
    · exact absurd hb (by decide)
    · exact goodW_no_btick h btick hxw rfl

/-- The neutral Markdown rendering of an admissible unit is backtick-free. -/
theorem btick_not_mem_unitC (u : EmUnit) (h : GoodW u.content) :
    btick ∉ unitC u := by
  cases u with
  | bold w =>
    intro hmem
    simp only [unitC] at hmem
    rcases mem_double_wrap hmem with hb | hxw
    · exact absurd hb (by decide)
    · exact goodW_no_btick h btick hxw rfl
  | ital w =>
    intro hmem
    simp only [unitC] at hmem
    rcases mem_single_wrap hmem with hb | hxw
    · exact absurd hb (by decide)
    · exact goodW_no_btick h btick hxw rfl
  | strike w =>
    intro hmem
    simp only [unitC] at hmem
    rcases mem_double_wrap hmem with hb | hxw
    · exact absurd hb (by decide)
    · exact goodW_no_btick h btick hxw rfl

/-- A space-separated rendering of backtick-free per-unit forms is
backtick-free. -/
theorem btick_not_mem_renderWith (f : EmUnit → List Char) (us : List EmUnit)
    (h : ∀ u ∈ us, btick ∉ f u) : btick ∉ renderWith f us := by
  induction us with
  | nil => simp [renderWith]
  | cons u us ih =>
    match us with
    | [] => exact h u (by simp)
    | v :: vs =>
      rw [show renderWith f (u :: v :: vs) = f u ++ ' ' :: renderWith f (v :: vs)
        from rfl]
      intro hmem
      simp at hmem
      rcases hmem with h1 | h2 | h3
      · exact h u (by simp) h1
      · exact absurd h2 (by decide)
      · exact ih (fun x hx => h x (by simp at hx ⊢; tauto)) h3

/-- C9: for a space-separated sequence of Slack emphasis spans (bold,
italic or strikethrough around admissible content words), converting the
assistant-bound Markdown produced by `maybe_slack_to_markdown` back with
`convert_markdown_to_mrkdwn` restores the original Slack mrkdwn text, so
the two emphasis pipelines are mutually inverse on this class, as §4.3 of
the specification asserts of the two normalizer directions. -/
theorem C9_markup_roundtrip (us : List EmUnit) (h : ∀ u ∈ us, GoodW u.content) :
    convert_markdown_to_mrkdwn
      (maybe_slack_to_markdown (String.mk (renderUnits us)) true) =
      String.mk (renderUnits us) := by
  have hbR : btick ∉ renderUnits us :=
    btick_not_mem_renderWith renderUnit us
      (fun u hu => btick_not_mem_renderUnit u (h u hu))
  have hbC : btick ∉ renderWith unitC us :=
    btick_not_mem_renderWith unitC us
      (fun u hu => btick_not_mem_unitC u (h u hu))
  rw [maybe_slack_to_markdown]
  rw [if_neg (by decide : ¬(true = false))]
  rw [show (String.mk (renderUnits us)).data = renderUnits us from rfl]
  rw [applyToNonCodeParts_no_btick slackPartTransform (renderUnits us) hbR]
  rw [show slackPartTransform (renderUnits us) = renderWith unitC us from by
    rw [slackPartTransform, renderUnits, stageSlackBold us h, stageSlackItal us h,
      stageSlackStrike us h]]
  rw [convert_markdown_to_mrkdwn]
  rw [show (String.mk (renderWith unitC us)).data = renderWith unitC us from rfl]
  rw [applyToNonCodeParts_no_btick markdownPartTransform (renderWith unitC us) hbC]
  rw [markdownPartTransform]
  rw [stageTriple us h]
  rw [stageGuard us h none (by simp) (by simp)]
  rw [stageMdBold us h, stageMdUnderscore us h, stageMdTilde us h]
  rfl

/-- Closed witness: the round trip restores the concrete Slack text built
from a bold, an italic and a strikethrough span. -/
theorem C9_markup_roundtrip_witness :
    (∀ u ∈ [EmUnit.bold ['h', 'i'], EmUnit.ital ['x'], EmUnit.strike ['y', 'z']],
      GoodW u.content) ∧
    convert_markdown_to_mrkdwn
      (maybe_slack_to_markdown
        (String.mk (renderUnits
          [EmUnit.bold ['h', 'i'], EmUnit.ital ['x'], EmUnit.strike ['y', 'z']]))
        true) =
      String.mk (renderUnits
        [EmUnit.bold ['h', 'i'], EmUnit.ital ['x'], EmUnit.strike ['y', 'z']]) :=
  ⟨by decide, C9_markup_roundtrip _ (by decide)⟩

end Collmbo
